import Mathlib

/-!
# Retention resolver and codec selector of `pkg/storage/utils.go`

A shallow embedding of `GetBackupsToDeleteRemote`, `getArchiveWriter`,
`getArchiveReader` and `checkArchiveExtension`, followed by the properties
proved about them.

Conventions of the embedding.
* A Go slice is a `List`; a Go `string` is a `String`.
* The closure `findRequiredBackup` mutates the captured slice `deletedBackups`;
  here the slice is passed in and handed back.
* `keep` ranges over the non-negative integers, hence `Nat`.
* A `(*compressedArchive, error)` result is an `Except String compressedArchive`.
* `GetBackupsToDeleteRemoteChecked` is the same function with every slice and index
  expression checked and the recursion of the closure counted; it is an `Except Fault`.
* `ResolveDeletable` is the resolver in the words of the specification, to be compared
  with the function.
-/

namespace Storage

/-! ## Data model -/

/-- Modelled from the spec: `time.Time` belongs to the Go standard library. A timestamp is
the instant it denotes, counted in nanoseconds from `0001-01-01 00:00:00 UTC`; the method
`After` and the comparison `!=` of line 52 are both read on that instant. -/
structure Time where
  nsec : Int
deriving DecidableEq, Repr

/-- The method `t.After(u)`: the instant `t` is strictly later than `u`. -/
def Time.After (t u : Time) : Bool := decide (u.nsec < t.nsec)

/-- The value `time.Date(1, time.January, 1, 0, 0, 0, 0, time.UTC)`. -/
def sentinelDate : Time := ⟨0⟩

/-- Modelled from the spec: the struct `Backup` is declared in another file of the package;
these are the three fields that `GetBackupsToDeleteRemote` reads. -/
structure Backup where
  BackupName : String
  RequiredBackup : String
  UploadDate : Time
deriving DecidableEq, Repr

/-- The zero value of `Backup`, which fills a slice returned by `make`. -/
def zeroBackup : Backup := ⟨"", "", ⟨0⟩⟩

/-! ## Go built-ins used by the retention resolver -/

/-- The library call `sort.SliceStable(x, less)`: a stable sort, so an element is placed
in front of the first element that is not strictly `less` than it. -/
def SliceStable (less : Backup → Backup → Bool) (x : List Backup) : List Backup :=
  x.insertionSort (fun a b => less b a = false)

/-- The built-in `make([]Backup, n)`. -/
def make (n : Nat) : List Backup := List.replicate n zeroBackup

/-- The built-in `copy(dst, src)`: the new contents of `dst` and the number of
elements copied, the smaller of the two lengths. -/
def copy (dst src : List Backup) : List Backup × Nat :=
  (src.take dst.length ++ dst.drop src.length, min dst.length src.length)

/-! ## `GetBackupsToDeleteRemote` -/

/-- The comparison handed to `sort.SliceStable` at lines 16-18. -/
def uploadedAfter (a b : Backup) : Bool := a.UploadDate.After b.UploadDate

/-- The scan `for i, deletedBackup := range deletedBackups` of lines 36-42 up to its
`break`: the first index, counted from `i`, whose `BackupName` is `name`, with the
element found there. -/
def rangeFind (name : String) : List Backup → Nat → Option (Nat × Backup)
  | [], _ => none
  | deletedBackup :: rest, i =>
    if name = deletedBackup.BackupName then some (i, deletedBackup)
    else rangeFind name rest (i + 1)

/-- The closure `findRequiredBackup` of lines 34-44, with the captured slice
`deletedBackups` as argument and result. The first argument bounds the depth of the
recursion; `GetBackupsToDeleteRemote` passes the length of `deletedBackups`. -/
def findRequiredBackup : Nat → List Backup → Backup → List Backup
  | 0, deletedBackups, _ => deletedBackups
  | depth + 1, deletedBackups, b =>
    if b.RequiredBackup ≠ "" then
      match rangeFind b.RequiredBackup deletedBackups 0 with
      | some (i, deletedBackup) =>
        findRequiredBackup depth (deletedBackups.take i ++ deletedBackups.drop (i + 1))
          deletedBackup
      | none => deletedBackups
    else deletedBackups

/-- The loop `for _, b := range keepBackups` of lines 45-47. -/
def rescueLoop (keepBackups deletedBackups : List Backup) : List Backup :=
  keepBackups.foldl (fun ds b => findRequiredBackup ds.length ds b) deletedBackups

/-- One iteration of the loop of lines 51-56 at position `idx` of the range; the state
is the slice `deletedBackups` and the counter `i`. -/
def sentinelStep (st : List Backup × Nat) (idx : Nat) : List Backup × Nat :=
  match st.1[idx]? with
  | some b => if b.UploadDate ≠ sentinelDate then (st.1.set st.2 b, st.2 + 1) else st
  | none => st

/-- The loop of lines 50-56: the slice and the counter `i` when it ends. -/
def sentinelLoop (deletedBackups : List Backup) : List Backup × Nat :=
  (List.range deletedBackups.length).foldl sentinelStep (deletedBackups, 0)

/-- The function `GetBackupsToDeleteRemote` with its effect on the caller's slice made
explicit: the first component is `backups` as the call leaves it, the second the
returned slice. -/
def GetBackupsToDeleteRemoteState (backups : List Backup) (keep : Nat) :
    List Backup × List Backup :=
  if backups.length > keep then
    let backups := SliceStable uploadedAfter backups
    let deletedBackups := (copy (make (backups.length - keep)) (backups.drop keep)).1
    let keepBackups := (copy (make keep) (backups.take keep)).1
    let deletedBackups := rescueLoop keepBackups deletedBackups
    let st := sentinelLoop deletedBackups
    (backups, st.1.take st.2)
  else (backups, [])

/-- The slice returned by `GetBackupsToDeleteRemote(backups, keep)`. -/
def GetBackupsToDeleteRemote (backups : List Backup) (keep : Nat) : List Backup :=
  (GetBackupsToDeleteRemoteState backups keep).2

/-! ## Specification vocabulary for the retention resolver -/

/-- The list stably sorted descending by `UploadDate`: going through the list from its
end, each backup is put in front of the first backup whose date is not later than its
own, hence in front of the backups of the same date that followed it. -/
def sortedDesc (l : List Backup) : List Backup :=
  l.insertionSort (fun a b => b.UploadDate.nsec ≤ a.UploadDate.nsec)

/-- Backup `b` names `d` as its `RequiredBackup`: the name is not empty and resolves to
the element `d` of the list `l`. -/
def Requires (l : List Backup) (b d : Backup) : Prop :=
  b.RequiredBackup ≠ "" ∧ d ∈ l ∧ d.BackupName = b.RequiredBackup

instance (l : List Backup) (b d : Backup) : Decidable (Requires l b d) := by
  unfold Requires; infer_instance

/-- Backup `d` is reached from `b` by following `RequiredBackup` names one or more
times inside the list `l`. -/
def Reaches (l : List Backup) (b d : Backup) : Prop :=
  Relation.TransGen (Requires l) b d

/-- The `BackupName` values of the list are pairwise distinct. -/
def DistinctNames (l : List Backup) : Prop := (l.map Backup.BackupName).Nodup

instance (l : List Backup) : Decidable (DistinctNames l) := by
  unfold DistinctNames; infer_instance

/-! ## Codec selector -/

/-- The archival backends of the `archives` library, values of the interface
`archives.Archival`. -/
inductive Archival where
  | Tar
  | Zip
deriving DecidableEq, Repr

/-- The result of `zstd.EncoderLevelFromZstd(level)`; the library function is outside
the repository, so the value records the level it was derived from. -/
structure EncoderLevel where
  fromZstd : Int
deriving DecidableEq, Repr

/-- The library function `zstd.EncoderLevelFromZstd`. -/
def EncoderLevelFromZstd (level : Int) : EncoderLevel := ⟨level⟩

/-- An encoder option `zstd.EOption`; the source builds only `zstd.WithEncoderLevel`. -/
inductive EOption where
  | WithEncoderLevel (l : EncoderLevel)
deriving DecidableEq, Repr

/-- The compression backends of the `archives` library that the source constructs,
with the fields it sets; a field that a struct literal leaves out has its zero value. -/
inductive Compression where
  | Lz4 (CompressionLevel : Int)
  | Bz2 (CompressionLevel : Int)
  | Gz (CompressionLevel : Int) (Multithreaded : Bool)
  | Sz
  | Xz
  | Brotli (Quality : Int)
  | Zstd (EncoderOptions : List EOption)
deriving DecidableEq, Repr

/-- The struct `compressedArchive` of lines 63-66; a nil `compression` is `none`. -/
structure compressedArchive where
  compression : Option Compression
  archival : Archival
deriving DecidableEq, Repr

/-- The message built by `fmt.Errorf` at lines 90 and 118. -/
def wrongFormat (format : String) : String :=
  "wrong compression_format: " ++ format ++
    ", supported: 'tar', 'lz4', 'bzip2', 'bz2', 'gzip', 'gz', 'sz', 'xz', 'br', 'brotli', 'zstd'"

/-- The function `getArchiveWriter` of lines 68-94. -/
def getArchiveWriter (format : String) (level : Int) : Except String compressedArchive :=
  let archival := Archival.Tar
  if format = "tar" then .ok ⟨none, archival⟩
  else if format = "lz4" then .ok ⟨some (.Lz4 level), archival⟩
  else if format = "bzip2" ∨ format = "bz2" then .ok ⟨some (.Bz2 level), archival⟩
  else if format = "gzip" ∨ format = "gz" then .ok ⟨some (.Gz level true), archival⟩
  else if format = "sz" then .ok ⟨some .Sz, archival⟩
  else if format = "xz" then .ok ⟨some .Xz, archival⟩
  else if format = "br" ∨ format = "brotli" then .ok ⟨some (.Brotli level), archival⟩
  else if format = "zstd" then
    .ok ⟨some (.Zstd [EOption.WithEncoderLevel (EncoderLevelFromZstd level)]), archival⟩
  else .error (wrongFormat format)

/-- The function `getArchiveReader` of lines 96-122. -/
def getArchiveReader (format : String) : Except String compressedArchive :=
  let archival := Archival.Tar
  if format = "tar" then .ok ⟨none, archival⟩
  else if format = "lz4" then .ok ⟨some (.Lz4 0), archival⟩
  else if format = "bzip2" ∨ format = "bz2" then .ok ⟨some (.Bz2 0), archival⟩
  else if format = "gzip" ∨ format = "gz" then .ok ⟨some (.Gz 0 true), archival⟩
  else if format = "sz" then .ok ⟨some .Sz, archival⟩
  else if format = "xz" then .ok ⟨some .Xz, archival⟩
  else if format = "br" ∨ format = "brotli" then .ok ⟨some (.Brotli 0), archival⟩
  else if format = "zstd" then .ok ⟨some (.Zstd []), archival⟩
  else .error (wrongFormat format)

/-- The library function `strings.HasSuffix(s, suffix)`. -/
def HasSuffix (s suffix : String) : Bool :=
  decide (suffix.length ≤ s.length) && (s.data.drop (s.length - suffix.length) == suffix.data)

/-- The function `checkArchiveExtension` of lines 124-147. -/
def checkArchiveExtension (ext format : String) : Bool :=
  if (format = "gz" ∨ format = "gzip") ∧ ext ≠ ".gz" ∧ ext ≠ ".gzip" then false
  else if (format = "bz2" ∨ format = "bzip2") ∧ ext ≠ ".bz2" ∧ ext ≠ ".bzip2" then false
  else if (format = "br" ∨ format = "brotli") ∧ ext ≠ ".br" ∧ ext ≠ ".brotli" then false
  else if HasSuffix ext format then true
  else if (format = "gz" ∨ format = "gzip") ∧ (ext = ".gz" ∨ ext = ".gzip") then true
  else if (format = "bz2" ∨ format = "bzip2") ∧ (ext = ".bz2" ∨ ext = ".bzip2") then true
  else if (format = "br" ∨ format = "brotli") ∧ (ext = ".br" ∨ ext = ".brotli") then true
  else false

/-! ## Specification vocabulary for the codec selector -/

/-- The eleven format tokens of the two `switch` statements. -/
def supportedFormats : List String :=
  ["tar", "lz4", "bzip2", "bz2", "gzip", "gz", "sz", "xz", "br", "brotli", "zstd"]

/-- The algorithm family of a compression backend: its type, whatever its fields. -/
inductive Family where
  | Lz4 | Bz2 | Gz | Sz | Xz | Brotli | Zstd
deriving DecidableEq, Repr

/-- The family of a compression backend. -/
def Compression.family : Compression → Family
  | .Lz4 _ => .Lz4
  | .Bz2 _ => .Bz2
  | .Gz _ _ => .Gz
  | .Sz => .Sz
  | .Xz => .Xz
  | .Brotli _ => .Brotli
  | .Zstd _ => .Zstd

/-- The family of the compression backend of a codec pair, `none` when it has none. -/
def compressedArchive.family (c : compressedArchive) : Option Family :=
  c.compression.map Compression.family

/-- The apostrophe, the quote character of the error message. -/
def quoteChar : Char := Char.ofNat 39

/-- The quoted tokens of a text, read left to right: the flag tells whether an opening
apostrophe is pending, and the last argument holds the characters read since it, latest
first. -/
def quotedAux : List Char → Bool → List Char → List String
  | [], _, _ => []
  | c :: cs, false, cur => if c = quoteChar then quotedAux cs true [] else quotedAux cs false cur
  | c :: cs, true, cur =>
    if c = quoteChar then String.mk cur.reverse :: quotedAux cs false []
    else quotedAux cs true (c :: cur)

/-- The tokens that a message shows between apostrophes. -/
def quotedTokens (msg : String) : List String := quotedAux msg.data false []

/-! ## Example data -/

/-- The newest backup of the chain `A → B → C`. -/
def chainA : Backup := ⟨"A", "B", ⟨30⟩⟩

/-- The middle backup of the chain `A → B → C`. -/
def chainB : Backup := ⟨"B", "C", ⟨20⟩⟩

/-- The full backup at the end of the chain `A → B → C`. -/
def chainC : Backup := ⟨"C", "", ⟨10⟩⟩

/-- A finished backup without dependency. -/
def fullNew : Backup := ⟨"new", "", ⟨10⟩⟩

/-- A finished backup without dependency, older than `fullNew`. -/
def fullOld : Backup := ⟨"old", "", ⟨5⟩⟩

/-- A backup whose upload date is not committed yet and which is based on `fullOld`. -/
def pendingIncrement : Backup := ⟨"pending", "old", sentinelDate⟩

/-! ## The traversal of the specification -/

/-- The name-indexed map of the design notes: the backup registered under a name, the
first of the list if several carry it. -/
def lookupName (index : List Backup) (name : String) : Option Backup :=
  index.find? (fun d => d.BackupName == name)

/-- The worklist traversal of the design notes over the name-indexed map. The list `work`
holds the backups whose reference is still to be followed, `seen` the ancestors found so
far; the first argument bounds the number of steps. -/
def worklistAncestors (index : List Backup) : Nat → List Backup → List Backup → List Backup
  | 0, _, seen => seen
  | _ + 1, [], seen => seen
  | steps + 1, b :: work, seen =>
    if b.RequiredBackup = "" then worklistAncestors index steps work seen
    else
      match lookupName index b.RequiredBackup with
      | none => worklistAncestors index steps work seen
      | some d =>
        if d ∈ seen then worklistAncestors index steps work seen
        else worklistAncestors index steps (d :: work) (d :: seen)

/-- The resolver as the specification words it: the candidates behind the first `keep`
backups of the sorted list, without the ancestors of the kept backups and without the
backups dated with the sentinel. -/
def ResolveDeletable (l : List Backup) (keep : Nat) : List Backup :=
  if l.length ≤ keep then []
  else
    let sorted := sortedDesc l
    let keepSet := sorted.take keep
    let candidateDeleteSet := sorted.drop keep
    let ancestors := worklistAncestors sorted (keepSet.length + sorted.length) keepSet []
    candidateDeleteSet.filter
      (fun d => decide (d ∉ ancestors) && decide (d.UploadDate ≠ sentinelDate))

/-! ## The function with its run-time checks -/

/-- What stops a run: a slice expression or an index out of range, or a recursion of
`findRequiredBackup` deeper than the bound handed in. -/
inductive Fault where
  | outOfRange
  | tooDeep
deriving DecidableEq, Repr

/-- The slice expression `s[lo:]`, in range when `lo ≤ len(s)`. -/
def sliceFrom (s : List Backup) (lo : Nat) : Except Fault (List Backup) :=
  if lo ≤ s.length then .ok (s.drop lo) else .error .outOfRange

/-- The slice expression `s[:hi]`. Go asks for `hi ≤ cap(s)`; the check here is the
stricter `hi ≤ len(s)`. -/
def sliceTo (s : List Backup) (hi : Nat) : Except Fault (List Backup) :=
  if hi ≤ s.length then .ok (s.take hi) else .error .outOfRange

/-- The closure `findRequiredBackup` with the two slice expressions of line 38 checked
and its recursive calls counted: the result is the slice `deletedBackups` after the call
and the number of nested recursive calls the call made. The first argument is the
greatest number of nested recursive calls allowed. -/
def findRequiredBackupChecked :
    Nat → List Backup → Backup → Except Fault (List Backup × Nat)
  | bound, deletedBackups, b =>
    if b.RequiredBackup ≠ "" then
      match rangeFind b.RequiredBackup deletedBackups 0 with
      | some (i, deletedBackup) =>
        match sliceTo deletedBackups i, sliceFrom deletedBackups (i + 1) with
        | .ok front, .ok back =>
          match bound with
          | 0 => .error .tooDeep
          | bound + 1 =>
            match findRequiredBackupChecked bound (front ++ back) deletedBackup with
            | .ok (ds, depth) => .ok (ds, depth + 1)
            | .error e => .error e
        | _, _ => .error .outOfRange
      | none => .ok (deletedBackups, 0)
    else .ok (deletedBackups, 0)

/-- The loop of lines 45-47 over the checked closure: the slice when the loop ends and the
greatest number of nested recursive calls of one walk. -/
def rescueLoopChecked (bound : Nat) :
    List Backup → List Backup → Except Fault (List Backup × Nat)
  | [], deletedBackups => .ok (deletedBackups, 0)
  | b :: keepBackups, deletedBackups =>
    match findRequiredBackupChecked bound deletedBackups b with
    | .ok (ds, depth) =>
      match rescueLoopChecked bound keepBackups ds with
      | .ok (ds2, depth2) => .ok (ds2, max depth depth2)
      | .error e => .error e
    | .error e => .error e

/-- One iteration of the loop of lines 51-56 with the index expression
`deletedBackups[i]` of line 53 checked. -/
def sentinelStepChecked (st : List Backup × Nat) (idx : Nat) :
    Except Fault (List Backup × Nat) :=
  match st.1[idx]? with
  | some b =>
    if b.UploadDate ≠ sentinelDate then
      if st.2 < st.1.length then .ok (st.1.set st.2 b, st.2 + 1) else .error .outOfRange
    else .ok st
  | none => .error .outOfRange

/-- The loop of lines 50-56 over the checked iteration. -/
def sentinelLoopChecked (deletedBackups : List Backup) : Except Fault (List Backup × Nat) :=
  (List.range deletedBackups.length).foldlM sentinelStepChecked (deletedBackups, 0)

/-- What a run of `GetBackupsToDeleteRemote` that comes to its end leaves behind. -/
structure Run where
  /-- The caller's slice `backups` after the call. -/
  backups : List Backup
  /-- The returned slice. -/
  result : List Backup
  /-- The value of `copied` after the call of `copy` at line 24. -/
  copiedDeleted : Nat
  /-- The value of `copied` after the call of `copy` at line 29. -/
  copiedKeep : Nat
  /-- The warnings logged at lines 26 and 31, each with its `expected` and `actual`. -/
  warnings : List (Nat × Nat)
  /-- The greatest number of nested recursive calls of `findRequiredBackup`. -/
  depth : Nat
deriving DecidableEq, Repr

/-- The function `GetBackupsToDeleteRemote` with every slice and index expression
checked, the warnings recorded and the recursion of `findRequiredBackup` limited to
`bound` nested calls. -/
def GetBackupsToDeleteRemoteChecked (bound : Nat) (backups : List Backup) (keep : Nat) :
    Except Fault Run :=
  if backups.length > keep then
    let backups := SliceStable uploadedAfter backups
    match sliceFrom backups keep, sliceTo backups keep with
    | .ok tail, .ok head =>
      let deleted := copy (make (backups.length - keep)) tail
      let warn1 :=
        if deleted.2 ≠ backups.length - keep then [(backups.length - keep, deleted.2)] else []
      let kept := copy (make keep) head
      let warn2 := if kept.2 ≠ keep then [(keep, kept.2)] else []
      match rescueLoopChecked bound kept.1 deleted.1 with
      | .ok (deletedBackups, depth) =>
        match sentinelLoopChecked deletedBackups with
        | .ok (deletedBackups, i) =>
          match sliceTo deletedBackups i with
          | .ok result => .ok ⟨backups, result, deleted.2, kept.2, warn1 ++ warn2, depth⟩
          | .error e => .error e
        | .error e => .error e
      | .error e => .error e
    | _, _ => .error .outOfRange
  else .ok ⟨backups, [], 0, 0, [], 0⟩

/-- A backup that names itself as its `RequiredBackup`. -/
def selfRequired : Backup := ⟨"loop", "loop", ⟨7⟩⟩

/-- A second backup with the name of `selfRequired`, based on `cycleTop`. -/
def sameName : Backup := ⟨"loop", "top", ⟨6⟩⟩

/-- The newest backup of a cycle: it requires `loop`, and `sameName` requires it. -/
def cycleTop : Backup := ⟨"top", "loop", ⟨9⟩⟩

/-- A backup whose `RequiredBackup` names no backup. -/
def dangling : Backup := ⟨"dangling", "missing", ⟨8⟩⟩

/-! # Theorems -/

/-! ## The sorted list -/

theorem uploadedAfter_eq_false {a b : Backup} :
    uploadedAfter b a = false ↔ b.UploadDate.nsec ≤ a.UploadDate.nsec := by
  simp [uploadedAfter, Time.After]

theorem orderedInsert_uploadedAfter (a : Backup) (l : List Backup) :
    List.orderedInsert (fun a b => uploadedAfter b a = false) a l =
      List.orderedInsert (fun a b : Backup => b.UploadDate.nsec ≤ a.UploadDate.nsec) a l := by
  induction l with
  | nil => rfl
  | cons b l ih =>
    simp only [List.orderedInsert]
    by_cases h : b.UploadDate.nsec ≤ a.UploadDate.nsec
    · rw [if_pos h, if_pos (uploadedAfter_eq_false.2 h)]
    · rw [if_neg h, if_neg (fun h2 => h (uploadedAfter_eq_false.1 h2)), ih]

/-- The call `sort.SliceStable` of lines 16-18 sorts stably descending by `UploadDate`. -/
theorem SliceStable_uploadedAfter (l : List Backup) :
    SliceStable uploadedAfter l = sortedDesc l := by
  induction l with
  | nil => rfl
  | cons a l ih =>
    unfold SliceStable sortedDesc at ih ⊢
    simp only [List.insertionSort]
    rw [ih, orderedInsert_uploadedAfter]

theorem sortedDesc_perm (l : List Backup) : (sortedDesc l).Perm l :=
  List.perm_insertionSort _ l

theorem sortedDesc_length (l : List Backup) : (sortedDesc l).length = l.length :=
  (sortedDesc_perm l).length_eq

theorem mem_sortedDesc {l : List Backup} {x : Backup} : x ∈ sortedDesc l ↔ x ∈ l :=
  (sortedDesc_perm l).mem_iff

theorem distinctNames_sortedDesc {l : List Backup} :
    DistinctNames (sortedDesc l) ↔ DistinctNames l :=
  ((sortedDesc_perm l).map _).nodup_iff

theorem requires_sortedDesc {l : List Backup} {b d : Backup} :
    Requires (sortedDesc l) b d ↔ Requires l b d := by
  simp [Requires, mem_sortedDesc]

/-- The dates of the sorted list do not increase from first to last. -/
theorem sortedDesc_pairwise (l : List Backup) :
    (sortedDesc l).Pairwise (fun a b => b.UploadDate.nsec ≤ a.UploadDate.nsec) := by
  have hT : IsTotal Backup (fun a b => b.UploadDate.nsec ≤ a.UploadDate.nsec) :=
    ⟨fun a b => le_total _ _⟩
  have hR : IsTrans Backup (fun a b => b.UploadDate.nsec ≤ a.UploadDate.nsec) :=
    ⟨fun a b c h1 h2 => le_trans h2 h1⟩
  exact List.sorted_insertionSort (fun a b : Backup => b.UploadDate.nsec ≤ a.UploadDate.nsec) l

/-- Two backups that stand in the list in an order the sort allows, such as two backups
of the same date, keep that order in the sorted list. -/
theorem sortedDesc_stable {a b : Backup} {l : List Backup}
    (hab : b.UploadDate.nsec ≤ a.UploadDate.nsec) (h : [a, b].Sublist l) :
    [a, b].Sublist (sortedDesc l) :=
  List.pair_sublist_insertionSort hab h

/-! ## The built-ins and the two loops in closed form -/

theorem copy_make_fst (n : Nat) (src : List Backup) (h : n = src.length) :
    (copy (make n) src).1 = src := by
  subst h; simp [copy, make]

theorem copy_make_snd (n : Nat) (src : List Backup) (h : n = src.length) :
    (copy (make n) src).2 = n := by
  subst h; simp [copy, make]

theorem take_set_same (l : List Backup) (i : Nat) (a : Backup) :
    (l.set i a).take i = l.take i := by
  apply List.ext_getElem?
  intro j
  by_cases hj : j < i
  · have : i ≠ j := by omega
    simp [List.getElem?_take, hj, List.getElem?_set, this]
  · simp [List.getElem?_take, hj]

/-- The predicate kept by the loop of lines 51-56. -/
theorem sentinelLoop_invariant (ds : List Backup) :
    ∀ n, n ≤ ds.length →
      let st := (List.range n).foldl sentinelStep (ds, 0)
      st.1.length = ds.length ∧ st.2 ≤ n ∧
        st.1.take st.2 = (ds.take n).filter (fun b => decide (b.UploadDate ≠ sentinelDate)) ∧
        st.1.drop n = ds.drop n := by
  intro n
  induction n with
  | zero => intro _; simp
  | succ n ih =>
    intro hn
    have hlt : n < ds.length := hn
    obtain ⟨h1, h2, h3, h4⟩ := ih (Nat.le_of_lt hlt)
    simp only [List.range_succ, List.foldl_append, List.foldl_cons, List.foldl_nil]
    generalize (List.range n).foldl sentinelStep (ds, 0) = st at h1 h2 h3 h4
    obtain ⟨arr, i⟩ := st
    simp only at h1 h2 h3 h4
    have hget : arr[n]? = some ds[n] := by
      have := congrArg (fun l => l[0]?) h4
      simpa [List.getElem?_drop, List.getElem?_eq_getElem hlt] using this
    have htake : (ds.take (n + 1)) = ds.take n ++ [ds[n]] := by
      rw [List.take_succ, List.getElem?_eq_getElem hlt]; rfl
    have h5 : arr.drop (n + 1) = ds.drop (n + 1) := by
      have := congrArg (List.drop 1) h4
      simpa [List.drop_drop, Nat.add_comm] using this
    simp only [sentinelStep, hget]
    by_cases hp : ds[n].UploadDate ≠ sentinelDate
    · rw [if_pos hp]
      have hi : i < arr.length := by omega
      refine ⟨by simp [h1], by simp; omega, ?_, ?_⟩
      · simp only [htake, List.filter_append, ← h3]
        rw [List.take_succ, List.getElem?_set_self hi]
        rw [take_set_same]
        simp [hp]
      · simp only
        rw [List.drop_set_of_lt _ _ (by omega), h5]
    · rw [if_neg hp]
      refine ⟨h1, by simp; omega, ?_, h5⟩
      simp only [htake, List.filter_append, ← h3]
      simp [hp]

theorem sentinelLoop_eq_filter (ds : List Backup) :
    (sentinelLoop ds).1.take (sentinelLoop ds).2 =
      ds.filter (fun b => decide (b.UploadDate ≠ sentinelDate)) := by
  have h := (sentinelLoop_invariant ds ds.length (Nat.le_refl _)).2.2.1
  simpa [sentinelLoop] using h

theorem GetBackupsToDeleteRemote_eq (l : List Backup) (keep : Nat) :
    GetBackupsToDeleteRemote l keep =
      if l.length > keep then
        (rescueLoop ((sortedDesc l).take keep) ((sortedDesc l).drop keep)).filter
          (fun b => decide (b.UploadDate ≠ sentinelDate))
      else [] := by
  unfold GetBackupsToDeleteRemote GetBackupsToDeleteRemoteState
  by_cases h : l.length > keep
  · have h1 : (sortedDesc l).length - keep = ((sortedDesc l).drop keep).length := by simp
    have h2 : keep = ((sortedDesc l).take keep).length := by
      simp [sortedDesc_length]; omega
    simp only [if_pos h, SliceStable_uploadedAfter]
    rw [copy_make_fst _ _ h1, copy_make_fst _ _ h2, sentinelLoop_eq_filter]
  · simp [h]

/-! ## The dependency walk -/

theorem rangeFind_some {name : String} {ds : List Backup} {k i : Nat} {d : Backup}
    (h : rangeFind name ds k = some (i, d)) :
    ∃ pre post, ds = pre ++ d :: post ∧ i = k + pre.length ∧ d.BackupName = name ∧
      ∀ x ∈ pre, x.BackupName ≠ name := by
  induction ds generalizing k with
  | nil => simp [rangeFind] at h
  | cons a rest ih =>
    unfold rangeFind at h
    by_cases ha : name = a.BackupName
    · rw [if_pos ha] at h
      simp only [Option.some.injEq, Prod.mk.injEq] at h
      obtain ⟨rfl, rfl⟩ := h
      exact ⟨[], rest, rfl, rfl, ha.symm, by simp⟩
    · rw [if_neg ha] at h
      obtain ⟨pre, post, h1, h2, h3, h4⟩ := ih h
      refine ⟨a :: pre, post, by simp [h1], by simp [h2]; omega, h3, ?_⟩
      intro x hx
      rcases List.mem_cons.1 hx with rfl | hx
      · exact fun e => ha e.symm
      · exact h4 x hx

theorem rangeFind_none {name : String} {ds : List Backup} {k : Nat}
    (h : rangeFind name ds k = none) : ∀ x ∈ ds, x.BackupName ≠ name := by
  induction ds generalizing k with
  | nil => simp
  | cons a rest ih =>
    unfold rangeFind at h
    by_cases ha : name = a.BackupName
    · rw [if_pos ha] at h; cases h
    · rw [if_neg ha] at h
      intro x hx
      rcases List.mem_cons.1 hx with rfl | hx
      · exact fun e => ha e.symm
      · exact ih h x hx

theorem take_append_drop_succ (pre post : List Backup) (d : Backup) :
    (pre ++ d :: post).take (0 + pre.length) ++ (pre ++ d :: post).drop (0 + pre.length + 1)
      = pre ++ post := by
  simp

theorem findRequiredBackup_step (depth : Nat) (ds : List Backup) (b : Backup) :
    findRequiredBackup (depth + 1) ds b =
      if b.RequiredBackup ≠ "" then
        match rangeFind b.RequiredBackup ds 0 with
        | some (i, deletedBackup) =>
          findRequiredBackup depth (ds.take i ++ ds.drop (i + 1)) deletedBackup
        | none => ds
      else ds := rfl

/-- What one call of the closure does to the slice: nothing, or it removes the element
that carries the required name and goes on from that element. -/
theorem findRequiredBackup_succ (depth : Nat) (ds : List Backup) (b : Backup) :
    (findRequiredBackup (depth + 1) ds b = ds ∧
        (b.RequiredBackup = "" ∨ ∀ x ∈ ds, x.BackupName ≠ b.RequiredBackup)) ∨
      ∃ pre d post, ds = pre ++ d :: post ∧ b.RequiredBackup ≠ "" ∧
        d.BackupName = b.RequiredBackup ∧ (∀ x ∈ pre, x.BackupName ≠ b.RequiredBackup) ∧
        findRequiredBackup (depth + 1) ds b = findRequiredBackup depth (pre ++ post) d := by
  rw [findRequiredBackup_step]
  by_cases hb : b.RequiredBackup ≠ ""
  · rw [if_pos hb]
    cases hf : rangeFind b.RequiredBackup ds 0 with
    | none => exact Or.inl ⟨rfl, Or.inr (rangeFind_none hf)⟩
    | some p =>
      obtain ⟨i, d⟩ := p
      obtain ⟨pre, post, h1, h2, h3, h4⟩ := rangeFind_some hf
      refine Or.inr ⟨pre, d, post, h1, hb, h3, h4, ?_⟩
      simp only
      subst h1 h2
      rw [take_append_drop_succ]
  · rw [if_neg hb]
    exact Or.inl ⟨rfl, Or.inl (not_not.1 hb)⟩

theorem findRequiredBackup_sublist (depth : Nat) (ds : List Backup) (b : Backup) :
    (findRequiredBackup depth ds b).Sublist ds := by
  induction depth generalizing ds b with
  | zero => simp [findRequiredBackup]
  | succ depth ih =>
    rcases findRequiredBackup_succ depth ds b with ⟨h, _⟩ | ⟨pre, d, post, h1, _, _, _, h5⟩
    · rw [h]
    · rw [h5, h1]
      exact (ih (pre ++ post) d).trans
        (List.Sublist.append (List.Sublist.refl pre) (List.sublist_cons_self d post))

/-- A depth bound of at least the length of the slice is never exhausted: the result does
not depend on it. -/
theorem findRequiredBackup_depth (d1 d2 : Nat) (ds : List Backup) (b : Backup)
    (h1 : ds.length ≤ d1) (h2 : ds.length ≤ d2) :
    findRequiredBackup d1 ds b = findRequiredBackup d2 ds b := by
  induction d1 generalizing d2 ds b with
  | zero =>
    have hnil : ds = [] := List.length_eq_zero.1 (Nat.le_zero.1 h1)
    subst hnil
    cases d2 with
    | zero => rfl
    | succ d2 =>
      rw [findRequiredBackup_step]
      simp [findRequiredBackup, rangeFind]
  | succ d1 ih =>
    cases d2 with
    | zero =>
      have hnil : ds = [] := List.length_eq_zero.1 (Nat.le_zero.1 h2)
      subst hnil
      rw [findRequiredBackup_step]
      simp [findRequiredBackup, rangeFind]
    | succ d2 =>
      rw [findRequiredBackup_step, findRequiredBackup_step]
      by_cases hb : b.RequiredBackup ≠ ""
      · rw [if_pos hb, if_pos hb]
        cases hf : rangeFind b.RequiredBackup ds 0 with
        | none => rfl
        | some p =>
          obtain ⟨i, d⟩ := p
          obtain ⟨pre, post, e1, e2, _, _⟩ := rangeFind_some hf
          subst e1 e2
          simp only [take_append_drop_succ]
          apply ih
          · simp at h1 ⊢; omega
          · simp at h2 ⊢; omega
      · rw [if_neg hb, if_neg hb]

theorem rescueLoop_nil (ds : List Backup) : rescueLoop [] ds = ds := rfl

theorem rescueLoop_cons (k : Backup) (ks ds : List Backup) :
    rescueLoop (k :: ks) ds = rescueLoop ks (findRequiredBackup ds.length ds k) := rfl

theorem rescueLoop_sublist (ks ds : List Backup) : (rescueLoop ks ds).Sublist ds := by
  induction ks generalizing ds with
  | nil => simp [rescueLoop_nil]
  | cons k ks ih =>
    rw [rescueLoop_cons]
    exact (ih _).trans (findRequiredBackup_sublist _ _ _)

theorem DistinctNames.eq_of_name {S : List Backup} (hS : DistinctNames S) {x y : Backup}
    (hx : x ∈ S) (hy : y ∈ S) (h : x.BackupName = y.BackupName) : x = y :=
  List.inj_on_of_nodup_map hS hx hy h

theorem DistinctNames.nodup {S : List Backup} (hS : DistinctNames S) : S.Nodup :=
  List.Nodup.of_map _ hS

/-- The walk from `b` leaves no required backup of `b`, and none of a backup it took out,
in the slice. -/
theorem findRequiredBackup_closed {S : List Backup} (hS : DistinctNames S) :
    ∀ (depth : Nat) (ds : List Backup) (b : Backup), ds.length ≤ depth → ds.Sublist S →
      (∀ y, Requires S b y → y ∉ findRequiredBackup depth ds b) ∧
      (∀ x ∈ ds, x ∉ findRequiredBackup depth ds b →
        ∀ y, Requires S x y → y ∉ findRequiredBackup depth ds b) := by
  intro depth
  induction depth with
  | zero =>
    intro ds b hlen _
    have : ds = [] := List.length_eq_zero.1 (Nat.le_zero.1 hlen)
    subst this
    simp [findRequiredBackup]
  | succ depth ih =>
    intro ds b hlen hsub
    rcases findRequiredBackup_succ depth ds b with ⟨h, hno⟩ | ⟨pre, d, post, h1, _, h3, _, h5⟩
    · rw [h]
      refine ⟨?_, fun x hx hx2 => absurd hx hx2⟩
      rintro y ⟨hy1, _, hy3⟩ hy
      rcases hno with hno | hno
      · exact hy1 hno
      · exact hno y hy hy3
    · rw [h5]
      subst h1
      have hsub1 : (pre ++ post).Sublist (pre ++ d :: post) :=
        List.Sublist.append (List.Sublist.refl pre) (List.sublist_cons_self d post)
      have hlen1 : (pre ++ post).length ≤ depth := by
        simp at hlen ⊢; omega
      obtain ⟨ihb, ihc⟩ := ih (pre ++ post) d hlen1 (hsub1.trans hsub)
      have hnd : (pre ++ d :: post).Nodup := hS.nodup.sublist hsub
      have hd1 : d ∉ pre ++ post := by
        have := List.nodup_middle.1 hnd
        exact (List.nodup_cons.1 this).1
      have hdS : d ∈ S := hsub.subset (by simp)
      have hd2 : d ∉ findRequiredBackup depth (pre ++ post) d :=
        fun h => hd1 ((findRequiredBackup_sublist _ _ _).subset h)
      refine ⟨?_, ?_⟩
      · rintro y ⟨_, hy2, hy3⟩
        have : y = d := hS.eq_of_name hy2 hdS (hy3.trans h3.symm)
        rw [this]; exact hd2
      · intro x hx hx2
        by_cases hxd : x = d
        · rw [hxd]; exact ihb
        · apply ihc x _ hx2
          simp only [List.mem_append, List.mem_cons] at hx ⊢
          tauto

theorem rescueLoop_closed {S : List Backup} (hS : DistinctNames S) :
    ∀ (ks ds : List Backup), ds.Sublist S →
      (∀ b ∈ ks, ∀ y, Requires S b y → y ∉ rescueLoop ks ds) ∧
      (∀ x ∈ ds, x ∉ rescueLoop ks ds → ∀ y, Requires S x y → y ∉ rescueLoop ks ds) := by
  intro ks
  induction ks with
  | nil =>
    intro ds _
    simp only [rescueLoop_nil, List.not_mem_nil, false_implies, implies_true, true_and]
    exact fun x hx hx2 => absurd hx hx2
  | cons k ks ih =>
    intro ds hsub
    rw [rescueLoop_cons]
    have hsub1 := findRequiredBackup_sublist ds.length ds k
    obtain ⟨fb, fc⟩ := findRequiredBackup_closed hS ds.length ds k (Nat.le_refl _) hsub
    obtain ⟨ihb, ihc⟩ := ih (findRequiredBackup ds.length ds k) (hsub1.trans hsub)
    have hsub2 := rescueLoop_sublist ks (findRequiredBackup ds.length ds k)
    refine ⟨?_, ?_⟩
    · intro b hb y hy
      rcases List.mem_cons.1 hb with rfl | hb
      · exact fun h => fb y hy (hsub2.subset h)
      · exact ihb b hb y hy
    · intro x hx hx2 y hy
      by_cases hx1 : x ∈ findRequiredBackup ds.length ds k
      · exact ihc x hx1 hx2 y hy
      · exact fun h => fc x hx hx1 y hy (hsub2.subset h)

/-- After the rescue pass every backup outside the slice has all the backups it reaches
outside the slice. -/
theorem rescued_closed (l : List Backup) (keep : Nat) (hd : DistinctNames l) (s d : Backup)
    (hs : s ∈ l)
    (hout : s ∉ rescueLoop ((sortedDesc l).take keep) ((sortedDesc l).drop keep))
    (hr : Reaches l s d) :
    d ∉ rescueLoop ((sortedDesc l).take keep) ((sortedDesc l).drop keep) := by
  have hS : DistinctNames (sortedDesc l) := distinctNames_sortedDesc.2 hd
  obtain ⟨hb, hc⟩ := rescueLoop_closed hS ((sortedDesc l).take keep) ((sortedDesc l).drop keep)
    (List.drop_sublist _ _)
  have hstep : ∀ x, x ∈ l →
      x ∉ rescueLoop ((sortedDesc l).take keep) ((sortedDesc l).drop keep) →
      ∀ y, Requires l x y →
        y ∉ rescueLoop ((sortedDesc l).take keep) ((sortedDesc l).drop keep) := by
    intro x hx hx2 y hy
    have hxS : x ∈ (sortedDesc l).take keep ++ (sortedDesc l).drop keep := by
      rw [List.take_append_drop]; exact mem_sortedDesc.2 hx
    rcases List.mem_append.1 hxS with h | h
    · exact hb x h y (requires_sortedDesc.2 hy)
    · exact hc x h hx2 y (requires_sortedDesc.2 hy)
  have key : d ∈ l ∧ d ∉ rescueLoop ((sortedDesc l).take keep) ((sortedDesc l).drop keep) := by
    induction hr with
    | single h => exact ⟨h.2.1, hstep s hs hout _ h⟩
    | tail _ h ih => exact ⟨h.2.1, hstep _ ih.1 ih.2 _ h⟩
  exact key.2

theorem take_disjoint_drop {S : List Backup} (hS : S.Nodup) (keep : Nat) {x : Backup}
    (hx : x ∈ S.take keep) : x ∉ S.drop keep := by
  have h : (S.take keep ++ S.drop keep).Nodup := by rw [List.take_append_drop]; exact hS
  exact fun hx2 => (List.nodup_append.1 h).2.2 hx hx2

theorem mem_result_iff (l : List Backup) (keep : Nat) (hk : keep < l.length) (x : Backup) :
    x ∈ GetBackupsToDeleteRemote l keep ↔
      x ∈ rescueLoop ((sortedDesc l).take keep) ((sortedDesc l).drop keep) ∧
        x.UploadDate ≠ sentinelDate := by
  rw [GetBackupsToDeleteRemote_eq, if_pos hk]
  simp [List.mem_filter]

/-! ## Properties of `GetBackupsToDeleteRemote` -/

/-- C1, dependency rescue: when the `BackupName` values are pairwise distinct and the list
is longer than `keep`, a backup reached from one of the first `keep` backups of the
sorted list by following `RequiredBackup` names one or more times is not returned. -/
theorem dependency_rescue (l : List Backup) (keep : Nat) (hd : DistinctNames l)
    (hk : keep < l.length) (b d : Backup) (hb : b ∈ (sortedDesc l).take keep)
    (hr : Reaches l b d) : d ∉ GetBackupsToDeleteRemote l keep := by
  have hS : (sortedDesc l).Nodup := (distinctNames_sortedDesc.2 hd).nodup
  have hbl : b ∈ l := mem_sortedDesc.1 (List.mem_of_mem_take hb)
  have hout : b ∉ rescueLoop ((sortedDesc l).take keep) ((sortedDesc l).drop keep) :=
    fun h => take_disjoint_drop hS keep hb ((rescueLoop_sublist _ _).subset h)
  exact fun h => rescued_closed l keep hd b d hbl hout hr ((mem_result_iff l keep hk d).1 h).1

/-- The chain `A → B → C` with `keep = 1` and `A` newest: neither `B` nor `C` is returned. -/
theorem dependency_rescue_witness :
    DistinctNames [chainC, chainA, chainB] ∧ 1 < [chainC, chainA, chainB].length ∧
      chainA ∈ (sortedDesc [chainC, chainA, chainB]).take 1 ∧
      Reaches [chainC, chainA, chainB] chainA chainB ∧
      Reaches [chainC, chainA, chainB] chainA chainC ∧
      chainB ∉ GetBackupsToDeleteRemote [chainC, chainA, chainB] 1 ∧
      chainC ∉ GetBackupsToDeleteRemote [chainC, chainA, chainB] 1 :=
  have hAB : Reaches [chainC, chainA, chainB] chainA chainB :=
    Relation.TransGen.single (by decide)
  have hAC : Reaches [chainC, chainA, chainB] chainA chainC :=
    Relation.TransGen.tail hAB (by decide)
  ⟨by decide, by decide, by decide, hAB, hAC,
    dependency_rescue [chainC, chainA, chainB] 1 (by decide) (by decide) chainA chainB
      (by decide) hAB,
    dependency_rescue [chainC, chainA, chainB] 1 (by decide) (by decide) chainA chainC
      (by decide) hAC⟩

/-- C2, sentinel exclusion: no returned backup has the sentinel `UploadDate`. -/
theorem sentinel_exclusion (l : List Backup) (keep : Nat) :
    ∀ x ∈ GetBackupsToDeleteRemote l keep, x.UploadDate ≠ sentinelDate := by
  intro x hx
  rw [GetBackupsToDeleteRemote_eq] at hx
  by_cases hk : l.length > keep
  · rw [if_pos hk] at hx
    simpa using (List.mem_filter.1 hx).2
  · rw [if_neg hk] at hx
    cases hx

/-- The list `new, pending, old` with `keep = 1`: `fullOld` is returned and its date is not
the sentinel, while `pendingIncrement`, dated with the sentinel, is not returned. -/
theorem sentinel_exclusion_witness :
    fullOld ∈ GetBackupsToDeleteRemote [fullNew, pendingIncrement, fullOld] 1 ∧
      fullOld.UploadDate ≠ sentinelDate ∧
      pendingIncrement ∉ GetBackupsToDeleteRemote [fullNew, pendingIncrement, fullOld] 1 :=
  ⟨by decide,
    sentinel_exclusion [fullNew, pendingIncrement, fullOld] 1 fullOld (by decide),
    fun h => sentinel_exclusion [fullNew, pendingIncrement, fullOld] 1 pendingIncrement h rfl⟩

/-- C3: a list with at most `keep` backups, the empty list included, yields the empty
result. -/
theorem short_list_empty (l : List Backup) (keep : Nat) (h : l.length ≤ keep) :
    GetBackupsToDeleteRemote l keep = [] := by
  rw [GetBackupsToDeleteRemote_eq, if_neg (Nat.not_lt.2 h)]

/-- Two backups with `keep = 2`, and the empty list with `keep = 0`. -/
theorem short_list_empty_witness :
    [fullNew, fullOld].length ≤ 2 ∧ GetBackupsToDeleteRemote [fullNew, fullOld] 2 = [] ∧
      GetBackupsToDeleteRemote [] 0 = [] :=
  ⟨by decide, short_list_empty [fullNew, fullOld] 2 (by decide),
    short_list_empty [] 0 (by decide)⟩

theorem rescueLoop_no_links (ks ds : List Backup) (h : ∀ b ∈ ks, b.RequiredBackup = "") :
    rescueLoop ks ds = ds := by
  induction ks generalizing ds with
  | nil => rfl
  | cons k ks ih =>
    rw [rescueLoop_cons]
    have hk : findRequiredBackup ds.length ds k = ds := by
      cases hn : ds.length with
      | zero => rfl
      | succ n => rw [findRequiredBackup_step]; simp [h k (List.mem_cons_self _ _)]
    rw [hk]
    exact ih ds (fun b hb => h b (List.mem_cons_of_mem _ hb))

/-- C4: without `RequiredBackup` links and sentinel dates, and with more than `keep`
backups, the result is the sorted list without its first `keep` elements, in that order:
`len(list) - keep` backups, none of them newer than a backup left out. -/
theorem plain_retention (l : List Backup) (keep : Nat)
    (hreq : ∀ b ∈ l, b.RequiredBackup = "") (hdate : ∀ b ∈ l, b.UploadDate ≠ sentinelDate)
    (hk : keep < l.length) :
    GetBackupsToDeleteRemote l keep = (sortedDesc l).drop keep ∧
      (GetBackupsToDeleteRemote l keep).length = l.length - keep ∧
      ∀ x ∈ (sortedDesc l).take keep, ∀ y ∈ GetBackupsToDeleteRemote l keep,
        y.UploadDate.After x.UploadDate = false := by
  have h1 : GetBackupsToDeleteRemote l keep = (sortedDesc l).drop keep := by
    rw [GetBackupsToDeleteRemote_eq, if_pos hk, rescueLoop_no_links]
    · apply List.filter_eq_self.2
      intro b hb
      simpa using hdate b (mem_sortedDesc.1 (List.mem_of_mem_drop hb))
    · exact fun b hb => hreq b (mem_sortedDesc.1 (List.mem_of_mem_take hb))
  refine ⟨h1, by rw [h1, List.length_drop, sortedDesc_length], ?_⟩
  intro x hx y hy
  rw [h1] at hy
  have hp := sortedDesc_pairwise l
  rw [← List.take_append_drop keep (sortedDesc l)] at hp
  have := (List.pairwise_append.1 hp).2.2 x hx y hy
  simpa [Time.After] using this

/-- Three plain backups, two of them with the same date, and `keep = 1`: the two that
come last in the stable descending order are returned, in that order. -/
theorem plain_retention_witness :
    (∀ b ∈ [fullOld, chainC, fullNew], b.RequiredBackup = "") ∧
      (∀ b ∈ [fullOld, chainC, fullNew], b.UploadDate ≠ sentinelDate) ∧
      1 < [fullOld, chainC, fullNew].length ∧
      GetBackupsToDeleteRemote [fullOld, chainC, fullNew] 1 = [fullNew, fullOld] ∧
      (GetBackupsToDeleteRemote [fullOld, chainC, fullNew] 1).length = 3 - 1 :=
  ⟨by decide, by decide, by decide,
    (plain_retention [fullOld, chainC, fullNew] 1 (by decide) (by decide) (by decide)).1.trans
      (by decide),
    (plain_retention [fullOld, chainC, fullNew] 1 (by decide) (by decide) (by decide)).2.1⟩

/-- C5 as stated fails: `pendingIncrement` is not returned, since its date is the sentinel,
yet `fullOld`, which it requires, is returned. -/
theorem survivors_closed_counterexample :
    ¬ (∀ (l : List Backup) (keep : Nat), DistinctNames l →
        ∀ s ∈ l, s ∉ GetBackupsToDeleteRemote l keep →
          ∀ d, Reaches l s d → d ∉ GetBackupsToDeleteRemote l keep) := by
  intro h
  have hr : Reaches [fullNew, pendingIncrement, fullOld] pendingIncrement fullOld :=
    Relation.TransGen.single (by decide)
  exact h [fullNew, pendingIncrement, fullOld] 1 (by decide) pendingIncrement (by decide)
    (by decide) fullOld hr (by decide)

/-- C5, amended: when the `BackupName` values are pairwise distinct, a backup of the list
that is not returned and whose `UploadDate` is not the sentinel has every backup it
reaches by following `RequiredBackup` names one or more times not returned either. -/
theorem survivors_closed (l : List Backup) (keep : Nat) (hd : DistinctNames l)
    (s : Backup) (hs : s ∈ l) (hout : s ∉ GetBackupsToDeleteRemote l keep)
    (hdate : s.UploadDate ≠ sentinelDate) (d : Backup) (hr : Reaches l s d) :
    d ∉ GetBackupsToDeleteRemote l keep := by
  by_cases hk : keep < l.length
  · have hout2 : s ∉ rescueLoop ((sortedDesc l).take keep) ((sortedDesc l).drop keep) :=
      fun h => hout ((mem_result_iff l keep hk s).2 ⟨h, hdate⟩)
    exact fun h => rescued_closed l keep hd s d hs hout2 hr ((mem_result_iff l keep hk d).1 h).1
  · rw [GetBackupsToDeleteRemote_eq, if_neg hk]
    exact List.not_mem_nil d

/-- The chain `A → B → C` with `keep = 1`: `A` is not returned and its date is not the
sentinel, so `C` is not returned. -/
theorem survivors_closed_witness :
    DistinctNames [chainC, chainA, chainB] ∧ chainA ∈ [chainC, chainA, chainB] ∧
      chainA ∉ GetBackupsToDeleteRemote [chainC, chainA, chainB] 1 ∧
      chainA.UploadDate ≠ sentinelDate ∧
      Reaches [chainC, chainA, chainB] chainA chainC ∧
      chainC ∉ GetBackupsToDeleteRemote [chainC, chainA, chainB] 1 :=
  have hAB : Reaches [chainC, chainA, chainB] chainA chainB :=
    Relation.TransGen.single (by decide)
  have hAC : Reaches [chainC, chainA, chainB] chainA chainC :=
    Relation.TransGen.tail hAB (by decide)
  ⟨by decide, by decide, by decide, by decide, hAC,
    survivors_closed [chainC, chainA, chainB] 1 (by decide) chainA (by decide) (by decide)
      (by decide) chainC hAC⟩

/-- C6: with more than `keep` backups the result is a sublist, in order, of the sorted
list without its first `keep` elements; so it has at most `len(list) - keep` elements, all
of them backups of the input, and with distinct names none of them is among the first
`keep` of the sorted list. -/
theorem result_sublist (l : List Backup) (keep : Nat) (hk : keep < l.length) :
    (GetBackupsToDeleteRemote l keep).Sublist ((sortedDesc l).drop keep) ∧
      (GetBackupsToDeleteRemote l keep).length ≤ l.length - keep ∧
      (∀ x ∈ GetBackupsToDeleteRemote l keep, x ∈ l) ∧
      (DistinctNames l →
        ∀ x ∈ GetBackupsToDeleteRemote l keep, x ∉ (sortedDesc l).take keep) := by
  have h1 : (GetBackupsToDeleteRemote l keep).Sublist ((sortedDesc l).drop keep) := by
    rw [GetBackupsToDeleteRemote_eq, if_pos hk]
    exact (List.filter_sublist _).trans (rescueLoop_sublist _ _)
  refine ⟨h1, ?_, ?_, ?_⟩
  · have := h1.length_le
    rwa [List.length_drop, sortedDesc_length] at this
  · exact fun x hx => mem_sortedDesc.1 (List.mem_of_mem_drop (h1.subset hx))
  · intro hd x hx hx2
    exact take_disjoint_drop (distinctNames_sortedDesc.2 hd).nodup keep hx2 (h1.subset hx)

/-- The list of the counterexample to C5 with `keep = 1`: of the two backups behind the
newest one, only `fullOld` is returned. -/
theorem result_sublist_witness :
    1 < [fullNew, pendingIncrement, fullOld].length ∧
      (GetBackupsToDeleteRemote [fullNew, pendingIncrement, fullOld] 1).Sublist
        ((sortedDesc [fullNew, pendingIncrement, fullOld]).drop 1) ∧
      (GetBackupsToDeleteRemote [fullNew, pendingIncrement, fullOld] 1).length ≤ 3 - 1 ∧
      (∀ x ∈ GetBackupsToDeleteRemote [fullNew, pendingIncrement, fullOld] 1,
        x ∈ [fullNew, pendingIncrement, fullOld]) ∧
      DistinctNames [fullNew, pendingIncrement, fullOld] ∧
      (∀ x ∈ GetBackupsToDeleteRemote [fullNew, pendingIncrement, fullOld] 1,
        x ∉ (sortedDesc [fullNew, pendingIncrement, fullOld]).take 1) :=
  have h := result_sublist [fullNew, pendingIncrement, fullOld] 1 (by decide)
  ⟨by decide, h.1, h.2.1, h.2.2.1, by decide, h.2.2.2 (by decide)⟩

/-! ## Properties of the codec selector -/

theorem getArchiveWriter_ok_iff (format : String) (level : Int) :
    (∃ c, getArchiveWriter format level = .ok c) ↔ format ∈ supportedFormats := by
  simp only [getArchiveWriter, supportedFormats, List.mem_cons, List.mem_singleton,
    List.not_mem_nil, or_false]
  split_ifs <;> first | (simp_all; done) | tauto

theorem getArchiveReader_ok_iff (format : String) :
    (∃ c, getArchiveReader format = .ok c) ↔ format ∈ supportedFormats := by
  simp only [getArchiveReader, supportedFormats, List.mem_cons, List.mem_singleton,
    List.not_mem_nil, or_false]
  split_ifs <;> first | (simp_all; done) | tauto

theorem getArchiveWriter_rejected (format : String) (level : Int)
    (h : format ∉ supportedFormats) :
    getArchiveWriter format level = .error (wrongFormat format) := by
  simp only [supportedFormats, List.mem_cons, List.mem_singleton, List.not_mem_nil, or_false,
    not_or] at h
  simp [getArchiveWriter, h]

theorem getArchiveReader_rejected (format : String) (h : format ∉ supportedFormats) :
    getArchiveReader format = .error (wrongFormat format) := by
  simp only [supportedFormats, List.mem_cons, List.mem_singleton, List.not_mem_nil, or_false,
    not_or] at h
  simp [getArchiveReader, h]

/-- C7: the writer and the reader selector succeed on exactly the eleven tokens, and on
every other format string, whatever the level, both return an error and no codec pair. -/
theorem selectors_same_domain (format : String) (level : Int) :
    ((∃ c, getArchiveWriter format level = .ok c) ↔ format ∈ supportedFormats) ∧
      ((∃ c, getArchiveReader format = .ok c) ↔ format ∈ supportedFormats) ∧
      ((∃ e, getArchiveWriter format level = .error e) ↔ format ∉ supportedFormats) ∧
      ((∃ e, getArchiveReader format = .error e) ↔ format ∉ supportedFormats) := by
  refine ⟨getArchiveWriter_ok_iff format level, getArchiveReader_ok_iff format, ?_, ?_⟩
  · constructor
    · rintro ⟨e, he⟩ hin
      obtain ⟨c, hc⟩ := (getArchiveWriter_ok_iff format level).2 hin
      rw [hc] at he
      cases he
    · exact fun h => ⟨_, getArchiveWriter_rejected format level h⟩
  · constructor
    · rintro ⟨e, he⟩ hin
      obtain ⟨c, hc⟩ := (getArchiveReader_ok_iff format).2 hin
      rw [hc] at he
      cases he
    · exact fun h => ⟨_, getArchiveReader_rejected format h⟩

/-- The strings `rar`, `GZ` and the empty string are rejected by both selectors, `gz` is
accepted by both. -/
theorem selectors_same_domain_witness :
    (∃ e, getArchiveWriter "rar" 1 = .error e) ∧ (∃ e, getArchiveReader "rar" = .error e) ∧
      (∃ e, getArchiveWriter "GZ" 1 = .error e) ∧ (∃ e, getArchiveReader "GZ" = .error e) ∧
      (∃ e, getArchiveWriter "" 1 = .error e) ∧ (∃ e, getArchiveReader "" = .error e) ∧
      (∃ c, getArchiveWriter "gz" 1 = .ok c) ∧ (∃ c, getArchiveReader "gz" = .ok c) :=
  ⟨(selectors_same_domain "rar" 1).2.2.1.2 (by decide),
    (selectors_same_domain "rar" 1).2.2.2.2 (by decide),
    (selectors_same_domain "GZ" 1).2.2.1.2 (by decide),
    (selectors_same_domain "GZ" 1).2.2.2.2 (by decide),
    (selectors_same_domain "" 1).2.2.1.2 (by decide),
    (selectors_same_domain "" 1).2.2.2.2 (by decide),
    (selectors_same_domain "gz" 1).1.2 (by decide),
    (selectors_same_domain "gz" 1).2.1.2 (by decide)⟩

/-- C9, codec pairing: for a supported token the writer and the reader both succeed with
the tar archival backend and with compression backends of the same family, or both
without one; and the two names of an alias pair give identical results in each mode. -/
theorem codec_pairing (f : String) (level : Int) (hf : f ∈ supportedFormats) :
    (∃ w r, getArchiveWriter f level = .ok w ∧ getArchiveReader f = .ok r ∧
        w.archival = Archival.Tar ∧ r.archival = Archival.Tar ∧ w.family = r.family) ∧
      getArchiveWriter "gz" level = getArchiveWriter "gzip" level ∧
      getArchiveReader "gz" = getArchiveReader "gzip" ∧
      getArchiveWriter "bz2" level = getArchiveWriter "bzip2" level ∧
      getArchiveReader "bz2" = getArchiveReader "bzip2" ∧
      getArchiveWriter "br" level = getArchiveWriter "brotli" level ∧
      getArchiveReader "br" = getArchiveReader "brotli" := by
  refine ⟨?_, rfl, rfl, rfl, rfl, rfl, rfl⟩
  simp only [supportedFormats, List.mem_cons, List.mem_singleton, List.not_mem_nil,
    or_false] at hf
  rcases hf with rfl | rfl | rfl | rfl | rfl | rfl | rfl | rfl | rfl | rfl | rfl <;>
    exact ⟨_, _, rfl, rfl, rfl, rfl, rfl⟩

/-- The token `zstd` at level 5: both selectors give the tar backend and a `Zstd`
compression backend. -/
theorem codec_pairing_witness :
    "zstd" ∈ supportedFormats ∧
      (∃ w r, getArchiveWriter "zstd" 5 = .ok w ∧ getArchiveReader "zstd" = .ok r ∧
        w.archival = Archival.Tar ∧ r.archival = Archival.Tar ∧ w.family = r.family) :=
  ⟨by decide, (codec_pairing "zstd" 5 (by decide)).1⟩

theorem quotedAux_skip (pre rest cur : List Char) (h : quoteChar ∉ pre) :
    quotedAux (pre ++ rest) false cur = quotedAux rest false cur := by
  induction pre with
  | nil => rfl
  | cons c cs ih =>
    have hc : c ≠ quoteChar := fun e => h (by simp [e])
    have hcs : quoteChar ∉ cs := fun e => h (List.mem_cons_of_mem _ e)
    simp only [List.cons_append, quotedAux, if_neg hc]
    exact ih hcs

theorem wrongFormat_data (format : String) :
    (wrongFormat format).data = "wrong compression_format: ".data ++ (format.data ++
      ", supported: 'tar', 'lz4', 'bzip2', 'bz2', 'gzip', 'gz', 'sz', 'xz', 'br', 'brotli', 'zstd'".data) := by
  simp [wrongFormat, String.data_append]

theorem quotedTokens_wrongFormat (format : String) (h : quoteChar ∉ format.data) :
    quotedTokens (wrongFormat format) = supportedFormats := by
  unfold quotedTokens
  rw [wrongFormat_data, quotedAux_skip _ _ _ (by decide), quotedAux_skip _ _ _ h]
  decide

/-- C8 as stated fails: the format string `'rar'`, apostrophes included, is rejected, and
the message then shows `rar` between apostrophes, a token that both selectors reject. -/
theorem error_message_tokens_counterexample :
    ¬ (∀ (format : String) (level : Int) (msg : String),
        (getArchiveWriter format level = .error msg ∨ getArchiveReader format = .error msg) →
          List.IsInfix format.data msg.data ∧
          ∀ t, t ∈ quotedTokens msg ↔
            ((∃ c, getArchiveWriter t level = .ok c) ∧ ∃ c, getArchiveReader t = .ok c)) := by
  intro h
  have h1 := (h "'rar'" 1 (wrongFormat "'rar'")
    (Or.inl (getArchiveWriter_rejected "'rar'" 1 (by decide)))).2 "rar"
  have h2 : "rar" ∈ quotedTokens (wrongFormat "'rar'") := by decide
  have h3 : "rar" ∈ supportedFormats := (getArchiveWriter_ok_iff "rar" 1).1 (h1.1 h2).1
  exact absurd h3 (by decide)

/-- C8, amended: for a rejected format string both selectors return the message that
consists of `wrong compression_format: `, the format string, and `, supported: ` with the
eleven accepted tokens between apostrophes, so the message contains the format string;
and when the format string has no apostrophe, the tokens between apostrophes in the
message are exactly the format strings on which the selectors succeed. -/
theorem error_message_tokens (format : String) (level : Int)
    (hrej : format ∉ supportedFormats) :
    getArchiveWriter format level = .error (wrongFormat format) ∧
      getArchiveReader format = .error (wrongFormat format) ∧
      List.IsInfix format.data (wrongFormat format).data ∧
      (quoteChar ∉ format.data →
        quotedTokens (wrongFormat format) = supportedFormats ∧
        ∀ t, t ∈ quotedTokens (wrongFormat format) ↔
          ((∃ c, getArchiveWriter t level = .ok c) ∧ ∃ c, getArchiveReader t = .ok c)) := by
  refine ⟨getArchiveWriter_rejected format level hrej, getArchiveReader_rejected format hrej,
    ⟨"wrong compression_format: ".data,
      ", supported: 'tar', 'lz4', 'bzip2', 'bz2', 'gzip', 'gz', 'sz', 'xz', 'br', 'brotli', 'zstd'".data,
      ?_⟩, ?_⟩
  · rw [wrongFormat_data, List.append_assoc]
  intro hq
  refine ⟨quotedTokens_wrongFormat format hq, fun t => ?_⟩
  rw [quotedTokens_wrongFormat format hq, getArchiveWriter_ok_iff, getArchiveReader_ok_iff]
  simp

/-- The format string `rar` at level 1: rejected by both selectors with a message that
names `rar` and shows exactly the eleven accepted tokens between apostrophes. -/
theorem error_message_tokens_witness :
    "rar" ∉ supportedFormats ∧ quoteChar ∉ "rar".data ∧
      getArchiveWriter "rar" 1 = .error (wrongFormat "rar") ∧
      getArchiveReader "rar" = .error (wrongFormat "rar") ∧
      List.IsInfix "rar".data (wrongFormat "rar").data ∧
      quotedTokens (wrongFormat "rar") = supportedFormats :=
  have h := error_message_tokens "rar" 1 (by decide)
  ⟨by decide, by decide, h.1, h.2.1, h.2.2.1, (h.2.2.2 (by decide)).1⟩

/-- C10, alias families of `checkArchiveExtension`: for the formats `gz` and `gzip` the
result is true exactly for the extensions `.gz` and `.gzip`, for `bz2` and `bzip2` exactly
for `.bz2` and `.bzip2`, for `br` and `brotli` exactly for `.br` and `.brotli`. -/
theorem alias_extensions (ext format : String) :
    ((format = "gz" ∨ format = "gzip") →
        (checkArchiveExtension ext format = true ↔ ext = ".gz" ∨ ext = ".gzip")) ∧
      ((format = "bz2" ∨ format = "bzip2") →
        (checkArchiveExtension ext format = true ↔ ext = ".bz2" ∨ ext = ".bzip2")) ∧
      ((format = "br" ∨ format = "brotli") →
        (checkArchiveExtension ext format = true ↔ ext = ".br" ∨ ext = ".brotli")) := by
  refine ⟨?_, ?_, ?_⟩
  · rintro (rfl | rfl)
    · by_cases h1 : ext = ".gz"
      · subst h1; decide
      · by_cases h2 : ext = ".gzip"
        · subst h2; decide
        · simp [checkArchiveExtension, h1, h2]
    · by_cases h1 : ext = ".gz"
      · subst h1; decide
      · by_cases h2 : ext = ".gzip"
        · subst h2; decide
        · simp [checkArchiveExtension, h1, h2]
  · rintro (rfl | rfl)
    · by_cases h1 : ext = ".bz2"
      · subst h1; decide
      · by_cases h2 : ext = ".bzip2"
        · subst h2; decide
        · simp [checkArchiveExtension, h1, h2]
    · by_cases h1 : ext = ".bz2"
      · subst h1; decide
      · by_cases h2 : ext = ".bzip2"
        · subst h2; decide
        · simp [checkArchiveExtension, h1, h2]
  · rintro (rfl | rfl)
    · by_cases h1 : ext = ".br"
      · subst h1; decide
      · by_cases h2 : ext = ".brotli"
        · subst h2; decide
        · simp [checkArchiveExtension, h1, h2]
    · by_cases h1 : ext = ".br"
      · subst h1; decide
      · by_cases h2 : ext = ".brotli"
        · subst h2; decide
        · simp [checkArchiveExtension, h1, h2]

/-- The pairs of the specification: `(".gzip", "gz")` is accepted, `(".gz2", "gz")` and
`(".tar.gz", "gz")` are not. -/
theorem alias_extensions_witness :
    checkArchiveExtension ".gzip" "gz" = true ∧ ¬ checkArchiveExtension ".gz2" "gz" = true ∧
      ¬ checkArchiveExtension ".tar.gz" "gz" = true ∧
      checkArchiveExtension ".bz2" "bzip2" = true ∧
      checkArchiveExtension ".brotli" "br" = true :=
  ⟨((alias_extensions ".gzip" "gz").1 (Or.inl rfl)).2 (by decide),
    fun h => absurd (((alias_extensions ".gz2" "gz").1 (Or.inl rfl)).1 h) (by decide),
    fun h => absurd (((alias_extensions ".tar.gz" "gz").1 (Or.inl rfl)).1 h) (by decide),
    ((alias_extensions ".bz2" "bzip2").2.1 (Or.inr rfl)).2 (by decide),
    ((alias_extensions ".brotli" "br").2.2 (Or.inl rfl)).2 (by decide)⟩

/-- The library function `strings.HasSuffix` tells whether the characters of `suffix`
end the characters of `s`. -/
theorem HasSuffix_iff (s suffix : String) :
    HasSuffix s suffix = true ↔ suffix.data <:+ s.data := by
  simp only [HasSuffix, String.length, Bool.and_eq_true, decide_eq_true_eq, beq_iff_eq]
  constructor
  · rintro ⟨_, h⟩
    exact List.suffix_iff_eq_drop.2 h.symm
  · intro h
    exact ⟨h.length_le, (List.suffix_iff_eq_drop.1 h).symm⟩

/-- C11: for a format string that is none of `gz`, `gzip`, `bz2`, `bzip2`, `br`, `brotli`,
`checkArchiveExtension` is true exactly when the extension ends with the format string;
for the empty format string that is the case for every extension. -/
theorem plain_format_extension (ext format : String)
    (h : format ∉ ["gz", "gzip", "bz2", "bzip2", "br", "brotli"]) :
    (checkArchiveExtension ext format = true ↔ format.data <:+ ext.data) ∧
      checkArchiveExtension ext "" = true := by
  simp only [List.mem_cons, List.mem_singleton, List.not_mem_nil, or_false, not_or] at h
  obtain ⟨h1, h2, h3, h4, h5, h6⟩ := h
  constructor
  · rw [← HasSuffix_iff]
    simp [checkArchiveExtension, h1, h2, h3, h4, h5, h6]
  · have : HasSuffix ext "" = true := (HasSuffix_iff ext "").2 List.nil_suffix
    simp [checkArchiveExtension, this]

/-- The pairs of the specification: `(".tar.zstd", "zstd")` is accepted, `(".tar.gz", "tar")`
is not, and the empty format accepts `.anything`. -/
theorem plain_format_extension_witness :
    "zstd" ∉ ["gz", "gzip", "bz2", "bzip2", "br", "brotli"] ∧
      checkArchiveExtension ".tar.zstd" "zstd" = true ∧
      ¬ checkArchiveExtension ".tar.gz" "tar" = true ∧
      checkArchiveExtension ".anything" "" = true :=
  ⟨by decide,
    (plain_format_extension ".tar.zstd" "zstd" (by decide)).1.2 (by decide),
    fun h => absurd ((plain_format_extension ".tar.gz" "tar" (by decide)).1.1 h) (by decide),
    (plain_format_extension ".anything" "zstd" (by decide)).2⟩

/-- C16, level handling in write mode: `lz4`, `bzip2`/`bz2`, `gzip`/`gz` and `br`/`brotli`
get the level in `CompressionLevel` or `Quality`, `gzip`/`gz` with `Multithreaded` set;
`zstd` gets the one encoder option made from the level; and the result for `tar`, `sz`
and `xz` is the same for every level. -/
theorem writer_level (level other : Int) :
    getArchiveWriter "lz4" level = .ok ⟨some (.Lz4 level), .Tar⟩ ∧
      getArchiveWriter "bzip2" level = .ok ⟨some (.Bz2 level), .Tar⟩ ∧
      getArchiveWriter "bz2" level = .ok ⟨some (.Bz2 level), .Tar⟩ ∧
      getArchiveWriter "gzip" level = .ok ⟨some (.Gz level true), .Tar⟩ ∧
      getArchiveWriter "gz" level = .ok ⟨some (.Gz level true), .Tar⟩ ∧
      getArchiveWriter "br" level = .ok ⟨some (.Brotli level), .Tar⟩ ∧
      getArchiveWriter "brotli" level = .ok ⟨some (.Brotli level), .Tar⟩ ∧
      getArchiveWriter "zstd" level =
        .ok ⟨some (.Zstd [EOption.WithEncoderLevel (EncoderLevelFromZstd level)]), .Tar⟩ ∧
      getArchiveWriter "tar" level = getArchiveWriter "tar" other ∧
      getArchiveWriter "sz" level = getArchiveWriter "sz" other ∧
      getArchiveWriter "xz" level = getArchiveWriter "xz" other :=
  ⟨rfl, rfl, rfl, rfl, rfl, rfl, rfl, rfl, rfl, rfl, rfl⟩

/-- C17: for a supported token both selectors succeed with the tar archival backend, and
the codec pair has no compression backend exactly when the token is `tar`. -/
theorem tar_archival (f : String) (level : Int) (hf : f ∈ supportedFormats) :
    ∃ w r, getArchiveWriter f level = .ok w ∧ getArchiveReader f = .ok r ∧
      w.archival = Archival.Tar ∧ r.archival = Archival.Tar ∧
      (w.compression = none ↔ f = "tar") ∧ (r.compression = none ↔ f = "tar") := by
  simp only [supportedFormats, List.mem_cons, List.mem_singleton, List.not_mem_nil,
    or_false] at hf
  rcases hf with rfl | rfl | rfl | rfl | rfl | rfl | rfl | rfl | rfl | rfl | rfl <;>
    exact ⟨_, _, rfl, rfl, rfl, rfl, by simp, by simp⟩

/-- The tokens `tar` and `xz` at level 3: only `tar` comes without compression backend. -/
theorem tar_archival_witness :
    "tar" ∈ supportedFormats ∧ "xz" ∈ supportedFormats ∧
      (∃ w r, getArchiveWriter "tar" 3 = .ok w ∧ getArchiveReader "tar" = .ok r ∧
        w.archival = Archival.Tar ∧ r.archival = Archival.Tar ∧
        (w.compression = none ↔ "tar" = "tar") ∧ (r.compression = none ↔ "tar" = "tar")) ∧
      (∃ w r, getArchiveWriter "xz" 3 = .ok w ∧ getArchiveReader "xz" = .ok r ∧
        w.archival = Archival.Tar ∧ r.archival = Archival.Tar ∧
        (w.compression = none ↔ "xz" = "tar") ∧ (r.compression = none ↔ "xz" = "tar")) :=
  ⟨by decide, by decide, tar_archival "tar" 3 (by decide), tar_archival "xz" 3 (by decide)⟩

theorem writer_family_eq_reader (f : String) (level : Int) :
    (getArchiveWriter f level).toOption.map compressedArchive.family =
      (getArchiveReader f).toOption.map compressedArchive.family := by
  unfold getArchiveWriter getArchiveReader
  split_ifs <;> rfl

set_option maxRecDepth 100000 in
theorem extension_table :
    ∀ f1 ∈ supportedFormats, ∀ f2 ∈ supportedFormats,
      ((checkArchiveExtension ("." ++ f1) f2 = true ↔
          (f1 = f2 ∨ (f1 ∈ ["gz", "gzip"] ∧ f2 ∈ ["gz", "gzip"]) ∨
            (f1 ∈ ["bz2", "bzip2"] ∧ f2 ∈ ["bz2", "bzip2"]) ∨
            (f1 ∈ ["br", "brotli"] ∧ f2 ∈ ["br", "brotli"]))) ∧
        (checkArchiveExtension ("." ++ f1) f2 = true ↔
          (getArchiveReader f1).toOption.map compressedArchive.family =
            (getArchiveReader f2).toOption.map compressedArchive.family)) := by
  decide

/-- C18: for supported tokens `f1` and `f2`, `checkArchiveExtension` accepts the extension
`.f1` for the format `f2` exactly when the two tokens are equal or aliases of one another,
which is exactly when the selector gives both the same compression family, or none. -/
theorem extension_agrees_with_selector (f1 f2 : String) (level : Int)
    (h1 : f1 ∈ supportedFormats) (h2 : f2 ∈ supportedFormats) :
    (checkArchiveExtension ("." ++ f1) f2 = true ↔
        (f1 = f2 ∨ (f1 ∈ ["gz", "gzip"] ∧ f2 ∈ ["gz", "gzip"]) ∨
          (f1 ∈ ["bz2", "bzip2"] ∧ f2 ∈ ["bz2", "bzip2"]) ∨
          (f1 ∈ ["br", "brotli"] ∧ f2 ∈ ["br", "brotli"]))) ∧
      (checkArchiveExtension ("." ++ f1) f2 = true ↔
        (getArchiveWriter f1 level).toOption.map compressedArchive.family =
          (getArchiveWriter f2 level).toOption.map compressedArchive.family) ∧
      checkArchiveExtension ("." ++ f1) f1 = true := by
  have h := extension_table f1 h1 f2 h2
  refine ⟨h.1, ?_, ?_⟩
  · rw [writer_family_eq_reader, writer_family_eq_reader]
    exact h.2
  · exact (extension_table f1 h1 f1 h1).1.2 (Or.inl rfl)

/-- The tokens `gzip` and `gz` agree, the tokens `sz` and `gz` do not. -/
theorem extension_agrees_with_selector_witness :
    "gzip" ∈ supportedFormats ∧ "gz" ∈ supportedFormats ∧ "sz" ∈ supportedFormats ∧
      checkArchiveExtension ("." ++ "gzip") "gz" = true ∧
      ¬ checkArchiveExtension ("." ++ "sz") "gz" = true ∧
      checkArchiveExtension ("." ++ "sz") "sz" = true :=
  ⟨by decide, by decide, by decide,
    (extension_agrees_with_selector "gzip" "gz" 1 (by decide) (by decide)).1.2 (by decide),
    fun h => absurd
      ((extension_agrees_with_selector "sz" "gz" 1 (by decide) (by decide)).1.1 h) (by decide),
    (extension_agrees_with_selector "sz" "sz" 1 (by decide) (by decide)).2.2⟩

/-! ## The caller's list -/

theorem state_fst (l : List Backup) (keep : Nat) :
    (GetBackupsToDeleteRemoteState l keep).1 =
      if l.length > keep then sortedDesc l else l := by
  unfold GetBackupsToDeleteRemoteState
  by_cases h : l.length > keep
  · simp only [if_pos h, SliceStable_uploadedAfter]
  · simp only [if_neg h]

theorem state_snd (l : List Backup) (keep : Nat) :
    (GetBackupsToDeleteRemoteState l keep).2 = GetBackupsToDeleteRemote l keep := rfl

/-- Sorting a sorted list changes nothing. -/
theorem sortedDesc_idem (l : List Backup) : sortedDesc (sortedDesc l) = sortedDesc l :=
  List.Sorted.insertionSort_eq (sortedDesc_pairwise l)

/-- Backups of one date stand in the sorted list as they stand in the original list. -/
theorem sortedDesc_filter_date (l : List Backup) (t : Time) :
    (sortedDesc l).filter (fun b => decide (b.UploadDate = t)) =
      l.filter (fun b => decide (b.UploadDate = t)) := by
  have hpw : (l.filter (fun b => decide (b.UploadDate = t))).Pairwise
      (fun a b => b.UploadDate.nsec ≤ a.UploadDate.nsec) := by
    apply List.pairwise_of_forall_mem_list
    intro a ha b hb
    have h1 := (List.mem_filter.1 ha).2
    have h2 := (List.mem_filter.1 hb).2
    simp only [decide_eq_true_eq] at h1 h2
    rw [h1, h2]
  have hsub : (l.filter (fun b => decide (b.UploadDate = t))).Sublist (sortedDesc l) :=
    List.sublist_insertionSort hpw (List.filter_sublist l)
  have hsub2 := hsub.filter (fun b => decide (b.UploadDate = t))
  rw [List.filter_filter] at hsub2
  simp only [Bool.and_self] at hsub2
  have hlen : ((sortedDesc l).filter (fun b => decide (b.UploadDate = t))).length =
      (l.filter (fun b => decide (b.UploadDate = t))).length :=
    ((sortedDesc_perm l).filter _).length_eq
  exact (hsub2.eq_of_length hlen.symm).symm

/-- C12, idempotence: when a call returns `r` and leaves the caller's list as `list'`, a
second call on `list'` with the same `keep` returns `r` again and leaves `list'` as it
is. -/
theorem second_call_same (l : List Backup) (keep : Nat) :
    GetBackupsToDeleteRemoteState (GetBackupsToDeleteRemoteState l keep).1 keep =
      ((GetBackupsToDeleteRemoteState l keep).1, (GetBackupsToDeleteRemoteState l keep).2) := by
  apply Prod.ext
  · simp only [state_fst]
    by_cases h : l.length > keep
    · simp only [if_pos h, sortedDesc_length, sortedDesc_idem]
    · simp only [if_neg h]
  · simp only [state_snd, state_fst, GetBackupsToDeleteRemote_eq]
    by_cases h : l.length > keep
    · simp only [if_pos h, sortedDesc_length, sortedDesc_idem]
    · simp only [if_neg h]

/-- C13, effect on the caller's list: with more than `keep` backups the call leaves the
list as the sort of lines 16-18 made it, the stable descending sort by `UploadDate`: a
permutation of the original, with dates that do not increase from first to last, and
with the backups of each date in their original order. -/
theorem caller_list_sorted (l : List Backup) (keep : Nat) (hk : keep < l.length) :
    (GetBackupsToDeleteRemoteState l keep).1 = SliceStable uploadedAfter l ∧
      (GetBackupsToDeleteRemoteState l keep).1 = sortedDesc l ∧
      ((GetBackupsToDeleteRemoteState l keep).1).Perm l ∧
      ((GetBackupsToDeleteRemoteState l keep).1).Pairwise
        (fun a b => ¬ b.UploadDate.After a.UploadDate = true) ∧
      ∀ t : Time, ((GetBackupsToDeleteRemoteState l keep).1).filter
          (fun b => decide (b.UploadDate = t)) = l.filter (fun b => decide (b.UploadDate = t)) := by
  have h : (GetBackupsToDeleteRemoteState l keep).1 = sortedDesc l := by
    rw [state_fst, if_pos hk]
  rw [h]
  refine ⟨(SliceStable_uploadedAfter l).symm, rfl, sortedDesc_perm l, ?_,
    sortedDesc_filter_date l⟩
  exact (sortedDesc_pairwise l).imp (fun {a b} hab => by simpa [Time.After] using hab)

/-- Three backups, the first two of the same date, and `keep = 1`: the newest comes first
and the two others keep their order. -/
theorem caller_list_sorted_witness :
    1 < [fullNew, chainC, chainA].length ∧
      (GetBackupsToDeleteRemoteState [fullNew, chainC, chainA] 1).1 =
        [chainA, fullNew, chainC] :=
  ⟨by decide, (caller_list_sorted [fullNew, chainC, chainA] 1 (by decide)).2.1.trans (by decide)⟩

/-! ## What the dependency walk takes out -/

/-- A backup that the walk from `b` takes out of the slice is reached from `b`. -/
theorem findRequiredBackup_removed {S : List Backup} :
    ∀ (depth : Nat) (ds : List Backup) (b : Backup), ds ⊆ S →
      ∀ x ∈ ds, x ∉ findRequiredBackup depth ds b → Reaches S b x := by
  intro depth
  induction depth with
  | zero =>
    intro ds b _ x hx hx2
    exact absurd hx hx2
  | succ depth ih =>
    intro ds b hsub x hx hx2
    rcases findRequiredBackup_succ depth ds b with ⟨h, _⟩ | ⟨pre, d, post, h1, h2, h3, _, h5⟩
    · rw [h] at hx2
      exact absurd hx hx2
    · rw [h5] at hx2
      subst h1
      have hd : Requires S b d := ⟨h2, hsub (by simp), h3⟩
      have hsub1 : pre ++ post ⊆ S := by
        intro y hy
        apply hsub
        simp only [List.mem_append, List.mem_cons] at hy ⊢
        tauto
      by_cases hxd : x = d
      · rw [hxd]
        exact Relation.TransGen.single hd
      · have hx1 : x ∈ pre ++ post := by
          simp only [List.mem_append, List.mem_cons] at hx ⊢
          tauto
        exact Relation.TransGen.head hd (ih (pre ++ post) d hsub1 x hx1 hx2)

theorem rescueLoop_removed {S : List Backup} :
    ∀ (ks ds : List Backup), ds ⊆ S →
      ∀ x ∈ ds, x ∉ rescueLoop ks ds → ∃ b ∈ ks, Reaches S b x := by
  intro ks
  induction ks with
  | nil =>
    intro ds _ x hx hx2
    exact absurd hx hx2
  | cons k ks ih =>
    intro ds hsub x hx hx2
    rw [rescueLoop_cons] at hx2
    by_cases hx1 : x ∈ findRequiredBackup ds.length ds k
    · have hsub1 : findRequiredBackup ds.length ds k ⊆ S :=
        fun y hy => hsub ((findRequiredBackup_sublist _ _ _).subset hy)
      obtain ⟨b, hb, hr⟩ := ih _ hsub1 x hx1 hx2
      exact ⟨b, List.mem_cons_of_mem _ hb, hr⟩
    · exact ⟨k, List.mem_cons_self _ _, findRequiredBackup_removed _ ds k hsub x hx hx1⟩

/-- A required name that no backup of the slice carries leaves the slice as it is. -/
theorem findRequiredBackup_dangling (depth : Nat) (ds : List Backup) (b : Backup)
    (h : ∀ x ∈ ds, x.BackupName ≠ b.RequiredBackup) : findRequiredBackup depth ds b = ds := by
  cases depth with
  | zero => rfl
  | succ depth =>
    rcases findRequiredBackup_succ depth ds b with ⟨h1, _⟩ | ⟨pre, d, post, h1, _, h3, _, _⟩
    · exact h1
    · exact absurd h3 (h d (by rw [h1]; simp))

theorem reaches_sortedDesc {l : List Backup} {b d : Backup} :
    Reaches (sortedDesc l) b d ↔ Reaches l b d := by
  have h : Requires (sortedDesc l) = Requires l := by
    funext x y
    exact propext requires_sortedDesc
  unfold Reaches
  rw [h]

/-- The result, member by member: the backups behind the first `keep` of the sorted list
that are not dated with the sentinel and not reached from one of the first `keep`. -/
theorem mem_result_exact (l : List Backup) (keep : Nat) (hd : DistinctNames l)
    (hk : keep < l.length) (d : Backup) :
    d ∈ GetBackupsToDeleteRemote l keep ↔
      d ∈ (sortedDesc l).drop keep ∧ d.UploadDate ≠ sentinelDate ∧
        ¬ ∃ b ∈ (sortedDesc l).take keep, Reaches l b d := by
  rw [mem_result_iff l keep hk]
  constructor
  · rintro ⟨h1, h2⟩
    refine ⟨(rescueLoop_sublist _ _).subset h1, h2, ?_⟩
    rintro ⟨b, hb, hr⟩
    have hS : (sortedDesc l).Nodup := (distinctNames_sortedDesc.2 hd).nodup
    have hout : b ∉ rescueLoop ((sortedDesc l).take keep) ((sortedDesc l).drop keep) :=
      fun h => take_disjoint_drop hS keep hb ((rescueLoop_sublist _ _).subset h)
    exact rescued_closed l keep hd b d (mem_sortedDesc.1 (List.mem_of_mem_take hb)) hout hr h1
  · rintro ⟨h1, h2, h3⟩
    refine ⟨?_, h2⟩
    by_contra hout
    obtain ⟨b, hb, hr⟩ := rescueLoop_removed ((sortedDesc l).take keep)
      ((sortedDesc l).drop keep) (List.drop_subset _ _) d h1 hout
    exact h3 ⟨b, hb, reaches_sortedDesc.1 hr⟩

/-! ## The traversal of the specification finds the reached backups -/

theorem lookupName_some {index : List Backup} {name : String} {d : Backup}
    (h : lookupName index name = some d) : d ∈ index ∧ d.BackupName = name := by
  unfold lookupName at h
  refine ⟨List.mem_of_find?_eq_some h, ?_⟩
  simpa using List.find?_some h

theorem lookupName_none {index : List Backup} {name : String}
    (h : lookupName index name = none) : ∀ x ∈ index, x.BackupName ≠ name := by
  unfold lookupName at h
  simpa using h

theorem worklistAncestors_step (index : List Backup) (steps : Nat) (b : Backup)
    (work seen : List Backup) :
    worklistAncestors index (steps + 1) (b :: work) seen =
      if b.RequiredBackup = "" then worklistAncestors index steps work seen
      else
        match lookupName index b.RequiredBackup with
        | none => worklistAncestors index steps work seen
        | some d =>
          if d ∈ seen then worklistAncestors index steps work seen
          else worklistAncestors index steps (d :: work) (d :: seen) := rfl

theorem worklistAncestors_spec {S : List Backup} (hS : DistinctNames S) :
    ∀ (steps : Nat) (work seen : List Backup), seen.Nodup → seen ⊆ S →
      work.length + S.length ≤ steps + seen.length →
      seen ⊆ worklistAncestors S steps work seen ∧
      (∀ x ∈ worklistAncestors S steps work seen,
        x ∈ seen ∨ ∃ b ∈ work, Reaches S b x) ∧
      (∀ b ∈ work, ∀ y, Requires S b y → y ∈ worklistAncestors S steps work seen) ∧
      (∀ x ∈ worklistAncestors S steps work seen, x ∉ seen →
        ∀ y, Requires S x y → y ∈ worklistAncestors S steps work seen) := by
  intro steps
  induction steps with
  | zero =>
    intro work seen hnd hsub hfuel
    have hlen : seen.length ≤ S.length := (hnd.subperm hsub).length_le
    have hw : work = [] := List.length_eq_zero.1 (by omega)
    subst hw
    simp only [worklistAncestors]
    exact ⟨fun x hx => hx, fun x hx => Or.inl hx, fun b hb => absurd hb (List.not_mem_nil b),
      fun x hx hx2 => absurd hx hx2⟩
  | succ steps ih =>
    intro work seen hnd hsub hfuel
    cases work with
    | nil =>
      simp only [worklistAncestors]
      exact ⟨fun x hx => hx, fun x hx => Or.inl hx,
        fun b hb => absurd hb (List.not_mem_nil b), fun x hx hx2 => absurd hx hx2⟩
    | cons b work =>
      have hfuel1 : work.length + S.length ≤ steps + seen.length := by
        simp only [List.length_cons] at hfuel; omega
      rw [worklistAncestors_step]
      -- the three ways in which the step only drops `b` from the worklist
      have drop_b : (∀ y, Requires S b y → y ∈ seen) →
          seen ⊆ worklistAncestors S steps work seen ∧
          (∀ x ∈ worklistAncestors S steps work seen,
            x ∈ seen ∨ ∃ b' ∈ b :: work, Reaches S b' x) ∧
          (∀ b' ∈ b :: work, ∀ y, Requires S b' y → y ∈ worklistAncestors S steps work seen) ∧
          (∀ x ∈ worklistAncestors S steps work seen, x ∉ seen →
            ∀ y, Requires S x y → y ∈ worklistAncestors S steps work seen) := by
        intro hb
        obtain ⟨i1, i2, i3, i4⟩ := ih work seen hnd hsub hfuel1
        refine ⟨i1, ?_, ?_, i4⟩
        · intro x hx
          rcases i2 x hx with h | ⟨b', hb', hr⟩
          · exact Or.inl h
          · exact Or.inr ⟨b', List.mem_cons_of_mem _ hb', hr⟩
        · intro b' hb' y hy
          rcases List.mem_cons.1 hb' with rfl | hb'
          · exact i1 (hb y hy)
          · exact i3 b' hb' y hy
      by_cases hreq : b.RequiredBackup = ""
      · rw [if_pos hreq]
        exact drop_b (fun y hy => absurd hreq hy.1)
      · rw [if_neg hreq]
        cases hl : lookupName S b.RequiredBackup with
        | none =>
          exact drop_b (fun y hy => absurd hy.2.2 (lookupName_none hl y hy.2.1))
        | some d =>
          obtain ⟨hdS, hdn⟩ := lookupName_some hl
          have huniq : ∀ y, Requires S b y → y = d :=
            fun y hy => hS.eq_of_name hy.2.1 hdS (hy.2.2.trans hdn.symm)
          simp only
          by_cases hseen : d ∈ seen
          · rw [if_pos hseen]
            exact drop_b (fun y hy => (huniq y hy) ▸ hseen)
          · rw [if_neg hseen]
            have hnd1 : (d :: seen).Nodup := List.nodup_cons.2 ⟨hseen, hnd⟩
            have hsub1 : d :: seen ⊆ S := List.cons_subset.2 ⟨hdS, hsub⟩
            have hfuel2 : (d :: work).length + S.length ≤ steps + (d :: seen).length := by
              simp only [List.length_cons] at hfuel ⊢; omega
            obtain ⟨i1, i2, i3, i4⟩ := ih (d :: work) (d :: seen) hnd1 hsub1 hfuel2
            have hbd : Requires S b d := ⟨hreq, hdS, hdn⟩
            refine ⟨fun x hx => i1 (List.mem_cons_of_mem _ hx), ?_, ?_, ?_⟩
            · intro x hx
              rcases i2 x hx with h | ⟨b', hb', hr⟩
              · rcases List.mem_cons.1 h with rfl | h
                · exact Or.inr ⟨b, List.mem_cons_self _ _, Relation.TransGen.single hbd⟩
                · exact Or.inl h
              · rcases List.mem_cons.1 hb' with rfl | hb'
                · exact Or.inr ⟨b, List.mem_cons_self _ _, Relation.TransGen.head hbd hr⟩
                · exact Or.inr ⟨b', List.mem_cons_of_mem _ hb', hr⟩
            · intro b' hb' y hy
              rcases List.mem_cons.1 hb' with rfl | hb'
              · rw [huniq y hy]
                exact i1 (List.mem_cons_self _ _)
              · exact i3 b' (List.mem_cons_of_mem _ hb') y hy
            · intro x hx hx2 y hy
              by_cases hxd : x = d
              · rw [hxd] at hy
                exact i3 d (List.mem_cons_self _ _) y hy
              · exact i4 x hx (fun h => (List.mem_cons.1 h).elim hxd hx2) y hy

theorem mem_worklistAncestors (l : List Backup) (keep : Nat) (hd : DistinctNames l)
    (x : Backup) :
    x ∈ worklistAncestors (sortedDesc l)
        (((sortedDesc l).take keep).length + (sortedDesc l).length)
        ((sortedDesc l).take keep) [] ↔
      ∃ b ∈ (sortedDesc l).take keep, Reaches l b x := by
  obtain ⟨_, i2, i3, i4⟩ := worklistAncestors_spec (distinctNames_sortedDesc.2 hd)
    (((sortedDesc l).take keep).length + (sortedDesc l).length)
    ((sortedDesc l).take keep) [] List.nodup_nil (List.nil_subset _) (by simp)
  constructor
  · intro hx
    rcases i2 x hx with h | ⟨b, hb, hr⟩
    · exact absurd h (List.not_mem_nil x)
    · exact ⟨b, hb, reaches_sortedDesc.1 hr⟩
  · rintro ⟨b, hb, hr⟩
    induction hr with
    | single h => exact i3 b hb _ (requires_sortedDesc.2 h)
    | tail _ h ih => exact i4 _ ih (List.not_mem_nil _) _ (requires_sortedDesc.2 h)

/-- A part of a list without repetition, in the order of the list, is the list filtered
by membership in the part. -/
theorem sublist_eq_filter_mem {s L : List Backup} (h : s.Sublist L) (hL : L.Nodup) :
    s = L.filter (fun x => decide (x ∈ s)) := by
  induction h with
  | slnil => rfl
  | @cons s L a h ih =>
    have ha : a ∉ s := fun hs => (List.nodup_cons.1 hL).1 (h.subset hs)
    rw [List.filter_cons_of_neg (by simpa using ha)]
    exact ih (List.nodup_cons.1 hL).2
  | @cons₂ s L a h ih =>
    rw [List.filter_cons_of_pos (by simp)]
    congr 1
    have hL2 := List.nodup_cons.1 hL
    have hcongr : L.filter (fun x => decide (x ∈ a :: s)) = L.filter (fun x => decide (x ∈ s)) := by
      apply List.filter_congr
      intro x hx
      have hxa : x ≠ a := fun e => hL2.1 (e ▸ hx)
      simp [hxa]
    rw [hcongr]
    exact ih hL2.2

theorem sublist_ext_of_nodup {s t L : List Backup} (hs : s.Sublist L) (ht : t.Sublist L)
    (hL : L.Nodup) (h : ∀ x, x ∈ s ↔ x ∈ t) : s = t := by
  rw [sublist_eq_filter_mem hs hL, sublist_eq_filter_mem ht hL]
  apply List.filter_congr
  intro x _
  simp only [h x]

/-- With distinct names the function returns what the resolver of the specification
returns. -/
theorem GetBackupsToDeleteRemote_eq_spec (l : List Backup) (keep : Nat)
    (hd : DistinctNames l) : GetBackupsToDeleteRemote l keep = ResolveDeletable l keep := by
  by_cases hk : keep < l.length
  · have hS : ((sortedDesc l).drop keep).Nodup :=
      (distinctNames_sortedDesc.2 hd).nodup.sublist (List.drop_sublist _ _)
    have h1 : (GetBackupsToDeleteRemote l keep).Sublist ((sortedDesc l).drop keep) := by
      rw [GetBackupsToDeleteRemote_eq, if_pos hk]
      exact (List.filter_sublist _).trans (rescueLoop_sublist _ _)
    have h2 : (ResolveDeletable l keep).Sublist ((sortedDesc l).drop keep) := by
      unfold ResolveDeletable
      rw [if_neg (Nat.not_le.2 hk)]
      exact List.filter_sublist _
    apply sublist_ext_of_nodup h1 h2 hS
    intro d
    rw [mem_result_exact l keep hd hk]
    unfold ResolveDeletable
    rw [if_neg (Nat.not_le.2 hk)]
    simp only [List.mem_filter, Bool.and_eq_true, decide_eq_true_eq,
      mem_worklistAncestors l keep hd]
    tauto
  · rw [GetBackupsToDeleteRemote_eq, if_neg hk]
    unfold ResolveDeletable
    rw [if_pos (Nat.le_of_not_lt hk)]

/-- C14, no over-retention: with distinct names and more than `keep` backups, a backup
behind the first `keep` of the sorted list that is not dated with the sentinel and not
reached from one of the first `keep` is returned; the result consists of exactly these
backups and is what the worklist traversal over the name-indexed map gives; and a
`RequiredBackup` that names no backup of the list leaves every slice of them as it is. -/
theorem no_over_retention (l : List Backup) (keep : Nat) (hd : DistinctNames l)
    (hk : keep < l.length) :
    (∀ d ∈ (sortedDesc l).drop keep, d.UploadDate ≠ sentinelDate →
        (¬ ∃ b ∈ (sortedDesc l).take keep, Reaches l b d) →
        d ∈ GetBackupsToDeleteRemote l keep) ∧
      (∀ d, d ∈ GetBackupsToDeleteRemote l keep ↔
        d ∈ (sortedDesc l).drop keep ∧ d.UploadDate ≠ sentinelDate ∧
          ¬ ∃ b ∈ (sortedDesc l).take keep, Reaches l b d) ∧
      GetBackupsToDeleteRemote l keep = ResolveDeletable l keep ∧
      (∀ b : Backup, (∀ x ∈ l, x.BackupName ≠ b.RequiredBackup) →
        ∀ ds : List Backup, ds ⊆ l → findRequiredBackup ds.length ds b = ds) := by
  refine ⟨fun d h1 h2 h3 => (mem_result_exact l keep hd hk d).2 ⟨h1, h2, h3⟩,
    mem_result_exact l keep hd hk, GetBackupsToDeleteRemote_eq_spec l keep hd, ?_⟩
  intro b hb ds hds
  exact findRequiredBackup_dangling _ ds b (fun x hx => hb x (hds hx))

/-- The list `new, pending, old` with `keep = 1`: `fullOld` stands behind `fullNew`, is
not dated with the sentinel and is not reached from `fullNew`, which requires nothing; it
is returned, and the traversal of the specification returns it as well. -/
theorem no_over_retention_witness :
    DistinctNames [fullNew, pendingIncrement, fullOld] ∧
      1 < [fullNew, pendingIncrement, fullOld].length ∧
      fullOld ∈ (sortedDesc [fullNew, pendingIncrement, fullOld]).drop 1 ∧
      fullOld.UploadDate ≠ sentinelDate ∧
      (¬ ∃ b ∈ (sortedDesc [fullNew, pendingIncrement, fullOld]).take 1,
        Reaches [fullNew, pendingIncrement, fullOld] b fullOld) ∧
      fullOld ∈ GetBackupsToDeleteRemote [fullNew, pendingIncrement, fullOld] 1 ∧
      ResolveDeletable [fullNew, pendingIncrement, fullOld] 1 = [fullOld] :=
  have hnot : ¬ ∃ b ∈ (sortedDesc [fullNew, pendingIncrement, fullOld]).take 1,
      Reaches [fullNew, pendingIncrement, fullOld] b fullOld := by
    rintro ⟨b, hb, hr⟩
    have hb2 : b = fullNew := by
      have : (sortedDesc [fullNew, pendingIncrement, fullOld]).take 1 = [fullNew] := by decide
      rw [this] at hb
      exact List.mem_singleton.1 hb
    subst hb2
    obtain ⟨c, hc, _⟩ := Relation.TransGen.head'_iff.1 hr
    exact hc.1 rfl
  ⟨by decide, by decide, by decide, by decide, hnot,
    (no_over_retention [fullNew, pendingIncrement, fullOld] 1 (by decide) (by decide)).1
      fullOld (by decide) (by decide) hnot,
    by decide⟩

/-! ## The checked run agrees with the function -/

theorem sliceTo_ok (s : List Backup) (hi : Nat) (h : hi ≤ s.length) :
    sliceTo s hi = .ok (s.take hi) := by
  simp [sliceTo, h]

theorem sliceFrom_ok (s : List Backup) (lo : Nat) (h : lo ≤ s.length) :
    sliceFrom s lo = .ok (s.drop lo) := by
  simp [sliceFrom, h]

/-- With a bound of at least the length of the slice the checked closure comes to its
end: no slice expression is out of range, the nested recursive calls are at most as many
as the slice has elements, and the slice it leaves is that of `findRequiredBackup`. -/
theorem findRequiredBackupChecked_ok :
    ∀ (bound : Nat) (ds : List Backup) (b : Backup), ds.length ≤ bound →
      ∃ depth, depth ≤ ds.length ∧
        (findRequiredBackup bound ds b).length + depth = ds.length ∧
        findRequiredBackupChecked bound ds b = .ok (findRequiredBackup bound ds b, depth) := by
  intro bound
  induction bound with
  | zero =>
    intro ds b hlen
    have hnil : ds = [] := List.length_eq_zero.1 (Nat.le_zero.1 hlen)
    subst hnil
    refine ⟨0, Nat.le_refl _, rfl, ?_⟩
    rw [findRequiredBackupChecked]
    simp [rangeFind, findRequiredBackup]
  | succ bound ih =>
    intro ds b hlen
    rw [findRequiredBackupChecked, findRequiredBackup_step]
    by_cases hb : b.RequiredBackup ≠ ""
    · rw [if_pos hb, if_pos hb]
      cases hf : rangeFind b.RequiredBackup ds 0 with
      | none => exact ⟨0, Nat.zero_le _, rfl, rfl⟩
      | some p =>
        obtain ⟨i, d⟩ := p
        obtain ⟨pre, post, e1, e2, _, _⟩ := rangeFind_some hf
        subst e1 e2
        have h1 : 0 + pre.length ≤ (pre ++ d :: post).length := by simp
        have h2 : 0 + pre.length + 1 ≤ (pre ++ d :: post).length := by simp
        have hlen1 : (pre ++ post).length ≤ bound := by
          simp at hlen ⊢; omega
        obtain ⟨depth, hdepth, hsum, hrec⟩ := ih (pre ++ post) d hlen1
        refine ⟨depth + 1, by simp at hdepth ⊢; omega, ?_, ?_⟩
        · simp only [take_append_drop_succ]
          simp at hsum ⊢; omega
        · simp only [sliceTo_ok _ _ h1, sliceFrom_ok _ _ h2, take_append_drop_succ, hrec]
    · rw [if_neg hb, if_neg hb]
      exact ⟨0, Nat.zero_le _, rfl, rfl⟩

theorem rescueLoopChecked_ok (bound : Nat) :
    ∀ (ks ds : List Backup), ds.length ≤ bound →
      ∃ depth, depth ≤ ds.length ∧
        rescueLoopChecked bound ks ds = .ok (rescueLoop ks ds, depth) := by
  intro ks
  induction ks with
  | nil =>
    intro ds _
    exact ⟨0, Nat.zero_le _, rfl⟩
  | cons k ks ih =>
    intro ds hlen
    obtain ⟨d1, hd1, _, h1⟩ := findRequiredBackupChecked_ok bound ds k hlen
    have hsub := (findRequiredBackup_sublist bound ds k).length_le
    obtain ⟨d2, hd2, h2⟩ := ih (findRequiredBackup bound ds k) (Nat.le_trans hsub hlen)
    refine ⟨max d1 d2, Nat.max_le.2 ⟨hd1, Nat.le_trans hd2 hsub⟩, ?_⟩
    rw [rescueLoopChecked, h1]
    simp only [h2]
    rw [rescueLoop_cons, findRequiredBackup_depth ds.length bound ds k (Nat.le_refl _) hlen]

theorem sentinelStepChecked_ok (st : List Backup × Nat) (idx : Nat)
    (h1 : idx < st.1.length) (h2 : st.2 ≤ idx) :
    sentinelStepChecked st idx = .ok (sentinelStep st idx) := by
  unfold sentinelStepChecked sentinelStep
  rw [List.getElem?_eq_getElem h1]
  simp only
  by_cases hp : st.1[idx].UploadDate ≠ sentinelDate
  · rw [if_pos hp, if_pos hp, if_pos (Nat.lt_of_le_of_lt h2 h1)]
  · rw [if_neg hp, if_neg hp]

theorem sentinelLoopChecked_upto (ds : List Backup) :
    ∀ n, n ≤ ds.length →
      (List.range n).foldlM sentinelStepChecked (ds, 0) =
        .ok ((List.range n).foldl sentinelStep (ds, 0)) := by
  intro n
  induction n with
  | zero => intro _; rfl
  | succ n ih =>
    intro hn
    have hlt : n < ds.length := hn
    obtain ⟨h1, h2, _, _⟩ := sentinelLoop_invariant ds n (Nat.le_of_lt hlt)
    simp only [List.range_succ, List.foldlM_append, List.foldl_append, ih (Nat.le_of_lt hlt),
      List.foldlM_cons, List.foldlM_nil, List.foldl_cons, List.foldl_nil]
    rw [show ∀ (x : List Backup × Nat) (f : List Backup × Nat → Except Fault (List Backup × Nat)),
      (Except.ok x >>= f) = f x from fun _ _ => rfl]
    rw [sentinelStepChecked_ok _ n (by rw [h1]; exact hlt) h2]
    rfl

theorem sentinelLoopChecked_ok (ds : List Backup) :
    sentinelLoopChecked ds = .ok (sentinelLoop ds) :=
  sentinelLoopChecked_upto ds ds.length (Nat.le_refl _)

theorem sentinelLoop_counter_le (ds : List Backup) :
    (sentinelLoop ds).2 ≤ (sentinelLoop ds).1.length := by
  obtain ⟨h1, h2, _, _⟩ := sentinelLoop_invariant ds ds.length (Nat.le_refl _)
  unfold sentinelLoop
  omega

/-- The checked run comes to its end whenever the bound is at least `len(list) - keep`,
and then it records no warning and returns what `GetBackupsToDeleteRemote` returns. -/
theorem GetBackupsToDeleteRemoteChecked_ok (bound : Nat) (l : List Backup) (keep : Nat)
    (hbound : l.length - keep ≤ bound) :
    ∃ run, GetBackupsToDeleteRemoteChecked bound l keep = .ok run ∧
      run.backups = (GetBackupsToDeleteRemoteState l keep).1 ∧
      run.result = GetBackupsToDeleteRemote l keep ∧
      run.warnings = [] ∧ run.depth ≤ l.length - keep ∧
      (keep < l.length → run.copiedDeleted = l.length - keep ∧ run.copiedKeep = keep) := by
  unfold GetBackupsToDeleteRemoteChecked
  by_cases hk : l.length > keep
  · have hlen := sortedDesc_length l
    have h1 : (sortedDesc l).length - keep = ((sortedDesc l).drop keep).length := by simp
    have h2 : keep = ((sortedDesc l).take keep).length := by
      simp [sortedDesc_length]; omega
    have hd : ((sortedDesc l).drop keep).length ≤ bound := by
      rw [← h1, hlen]; exact hbound
    obtain ⟨depth, hdepth, hres⟩ := rescueLoopChecked_ok bound ((sortedDesc l).take keep)
      ((sortedDesc l).drop keep) hd
    simp only [if_pos hk, SliceStable_uploadedAfter,
      sliceFrom_ok _ keep (by rw [hlen]; omega), sliceTo_ok _ keep (by rw [hlen]; omega),
      copy_make_fst _ _ h1, copy_make_fst _ _ h2, copy_make_snd _ _ h1, copy_make_snd _ _ h2,
      hres, sentinelLoopChecked_ok, sliceTo_ok _ _ (sentinelLoop_counter_le _)]
    refine ⟨_, rfl, ?_, ?_, ?_, ?_, ?_⟩
    · simp only [state_fst, if_pos hk]
    · simp only [GetBackupsToDeleteRemote_eq, if_pos hk, sentinelLoop_eq_filter]
    · simp
    · simp only
      rw [← h1, hlen] at hdepth
      exact hdepth
    · intro _
      simp only [hlen, and_self]
  · simp only [if_neg hk]
    refine ⟨_, rfl, ?_, ?_, rfl, Nat.zero_le _, fun h => absurd h hk⟩
    · simp only [state_fst, if_neg hk]
    · simp only [GetBackupsToDeleteRemote_eq, if_neg hk]

/-- C15, termination of the chain walk: whatever the `RequiredBackup` references and the
names are, a call of the closure on a slice comes to its end with as many nested
recursive calls as it takes elements out of the slice, at most the length of the slice;
and the run of `GetBackupsToDeleteRemote` comes to its end under every bound of at least
`len(list) - keep` nested calls, returns the result without fault and needs at most
`len(list) - keep` nested calls. -/
theorem chain_walk_terminates (l : List Backup) (keep bound : Nat)
    (hbound : l.length - keep ≤ bound) :
    (∃ run, GetBackupsToDeleteRemoteChecked bound l keep = .ok run ∧
        run.result = GetBackupsToDeleteRemote l keep ∧ run.depth ≤ l.length - keep) ∧
      ∀ (ds : List Backup) (b : Backup), ∃ depth, depth ≤ ds.length ∧
        (findRequiredBackup ds.length ds b).length + depth = ds.length ∧
        findRequiredBackupChecked ds.length ds b =
          .ok (findRequiredBackup ds.length ds b, depth) := by
  obtain ⟨run, h1, _, h3, _, h5, _⟩ := GetBackupsToDeleteRemoteChecked_ok bound l keep hbound
  exact ⟨⟨run, h1, h3, h5⟩, fun ds b => findRequiredBackupChecked_ok ds.length ds b (Nat.le_refl _)⟩

/-- A list with a cycle, a backup that requires itself, two backups of one name and a
dangling reference, with `keep = 1`: the run ends with two nested calls and returns the
backup with the dangling reference. -/
theorem chain_walk_terminates_witness :
    [selfRequired, sameName, cycleTop, dangling].length - 1 ≤ 3 ∧
      (∃ run, GetBackupsToDeleteRemoteChecked 3 [selfRequired, sameName, cycleTop, dangling] 1 =
          .ok run ∧
        run.result = GetBackupsToDeleteRemote [selfRequired, sameName, cycleTop, dangling] 1 ∧
        run.depth ≤ [selfRequired, sameName, cycleTop, dangling].length - 1) ∧
      GetBackupsToDeleteRemoteChecked 3 [selfRequired, sameName, cycleTop, dangling] 1 =
        .ok ⟨[cycleTop, dangling, selfRequired, sameName], [dangling], 3, 1, [], 2⟩ :=
  ⟨by decide,
    (chain_walk_terminates [selfRequired, sameName, cycleTop, dangling] 1 3 (by decide)).1,
    rfl⟩

/-- C19: with more than `keep` backups the run with every slice and index expression
checked comes to its end, so none of them is out of range; the two calls of `copy` copy
`len(list) - keep` and `keep` elements, and no warning is logged. -/
theorem copies_and_slices_in_range (l : List Backup) (keep : Nat) (hk : keep < l.length) :
    ∃ run, GetBackupsToDeleteRemoteChecked (l.length - keep) l keep = .ok run ∧
      run.copiedDeleted = l.length - keep ∧ run.copiedKeep = keep ∧ run.warnings = [] ∧
      run.result = GetBackupsToDeleteRemote l keep ∧
      (copy (make (l.length - keep)) ((SliceStable uploadedAfter l).drop keep)).2 =
        l.length - keep ∧
      (copy (make keep) ((SliceStable uploadedAfter l).take keep)).2 = keep := by
  obtain ⟨run, h1, _, h3, h4, _, h6⟩ :=
    GetBackupsToDeleteRemoteChecked_ok (l.length - keep) l keep (Nat.le_refl _)
  refine ⟨run, h1, (h6 hk).1, (h6 hk).2, h4, h3, ?_, ?_⟩
  · apply copy_make_snd
    rw [SliceStable_uploadedAfter, List.length_drop, sortedDesc_length]
  · apply copy_make_snd
    rw [SliceStable_uploadedAfter, List.length_take, sortedDesc_length]
    omega

/-- The chain `A → B → C` with `keep = 1`: two elements and one element are copied, no
warning is logged, and the walk from `A` takes `B` and `C` out of the slice. -/
theorem copies_and_slices_in_range_witness :
    1 < [chainC, chainA, chainB].length ∧
      (∃ run, GetBackupsToDeleteRemoteChecked ([chainC, chainA, chainB].length - 1)
          [chainC, chainA, chainB] 1 = .ok run ∧
        run.copiedDeleted = [chainC, chainA, chainB].length - 1 ∧ run.copiedKeep = 1 ∧
        run.warnings = [] ∧
        run.result = GetBackupsToDeleteRemote [chainC, chainA, chainB] 1) ∧
      GetBackupsToDeleteRemoteChecked 2 [chainC, chainA, chainB] 1 =
        .ok ⟨[chainA, chainB, chainC], [], 2, 1, [], 2⟩ :=
  have h := copies_and_slices_in_range [chainC, chainA, chainB] 1 (by decide)
  ⟨by decide,
    h.elim (fun run hr => ⟨run, hr.1, hr.2.1, hr.2.2.1, hr.2.2.2.1, hr.2.2.2.2.1⟩),
    rfl⟩

end Storage
